import Mathlib

/-!
Verification of the chunked audiobook-generation pipeline of this repository.

The development shallowly embeds the core source files:
* `src/utils/audioUtils.ts` — `splitIntoSentences`, `createSmartChunks`,
  `concatenateAudioBuffers`, `createWavFile`, `createMp3File`;
* `src/App.tsx` (`handleGenerate`) — the sequential generation loop with its
  retry/backoff policy, the rate-limit pacing ratchet, resume support and the
  per-chunk export.

Texts are modelled as `List Char` (a JS string is a sequence of UTF-16 units;
all reasoning here is unit-by-unit, so a list of characters is faithful).
Byte arrays (`Uint8Array`) are modelled as `List Nat`, each entry a byte value.
The external speech API is modelled as an oracle giving the outcome of the
a-th synthesis attempt for chunk i; delays are values recorded in an event
trace rather than real time.  Cooperative cancellation (`abortRef`) is not
exercised by any claim and is modelled as never being requested.
-/

/-- Whitespace test matching the JavaScript regular-expression class `\s`
(used by `text.replace(/\s+/g, ' ')`, `String.prototype.trim`, and the
sentence-splitting separator in `src/utils/audioUtils.ts`). -/
def isWs (c : Char) : Bool :=
  c = ' ' || c = '\t' || c = '\n' || c = '\r' || c = '\x0b' || c = '\x0c' ||
  c = '\u00A0' || c = '\u1680' || c = '\u2000' || c = '\u2001' || c = '\u2002' ||
  c = '\u2003' || c = '\u2004' || c = '\u2005' || c = '\u2006' || c = '\u2007' ||
  c = '\u2008' || c = '\u2009' || c = '\u200A' || c = '\u2028' || c = '\u2029' ||
  c = '\u202F' || c = '\u205F' || c = '\u3000' || c = '\uFEFF'

/-- Sentence-terminator test: the character class `[.!?]` of the separator
regex `(?<=[.!?])\s+` in `splitIntoSentences` (src/utils/audioUtils.ts:12). -/
def isTerm (c : Char) : Bool :=
  c = '.' || c = '!' || c = '?'

/-- State machine for `text.replace(/\s+/g, ' ')`: each maximal run of
whitespace is replaced by a single space.  The flag records whether the
previous character was part of a whitespace run. -/
def collapseAux : Bool → List Char → List Char
  | _, [] => []
  | prevWs, c :: rest =>
    if isWs c then
      if prevWs then collapseAux true rest
      else ' ' :: collapseAux true rest
    else c :: collapseAux false rest

/-- Model of `String.prototype.trim`: drop whitespace from both ends. -/
def trimChars (l : List Char) : List Char :=
  (((l.dropWhile isWs).reverse.dropWhile isWs)).reverse

/-- `text.replace(/\s+/g, ' ').trim()` (src/utils/audioUtils.ts:8). -/
def cleanedText (l : List Char) : List Char :=
  trimChars (collapseAux false l)

/-- Does the list start with a whitespace character? -/
def headIsWs : List Char → Bool
  | [] => false
  | d :: _ => isWs d

/-- Scanner for `cleanedText.split(/(?<=[.!?])\s+/)` (src/utils/audioUtils.ts:12).
A split point is a sentence terminator immediately followed by whitespace; the
separator greedily consumes the whole whitespace run.  `skip` is true while the
scanner is consuming a separator's whitespace run, `acc` holds the reversed
characters of the piece under construction. -/
def splitAux : Bool → List Char → List Char → List (List Char)
  | _, acc, [] => [acc.reverse]
  | skip, acc, c :: rest =>
    if skip && isWs c then splitAux true acc rest
    else if isTerm c && headIsWs rest then
      (acc.reverse ++ [c]) :: splitAux true [] rest
    else splitAux false (c :: acc) rest

/-- `splitIntoSentences` (src/utils/audioUtils.ts:7-14): normalise whitespace,
split after sentence terminators, and keep only pieces whose trim is
non-empty. -/
def splitIntoSentences (text : List Char) : List (List Char) :=
  (splitAux false [] (cleanedText text)).filter (fun s => !(trimChars s).isEmpty)

/-- The greedy sentence-packing loop of `createSmartChunks`
(src/utils/audioUtils.ts:24-38).  First argument of the match is
`currentChunk`, second the remaining sentences. -/
def buildChunks (maxChars : Nat) : List Char → List (List Char) → List (List Char)
  | currentChunk, [] => if currentChunk = [] then [] else [currentChunk]
  | currentChunk, sentence :: rest =>
    if currentChunk.length + sentence.length + 1 ≤ maxChars then
      buildChunks maxChars
        (if currentChunk = [] then sentence else currentChunk ++ ' ' :: sentence) rest
    else if currentChunk = [] then
      buildChunks maxChars sentence rest
    else
      currentChunk :: buildChunks maxChars sentence rest

/-- `createSmartChunks` (src/utils/audioUtils.ts:19-41). -/
def createSmartChunks (text : List Char) (maxChars : Nat) : List (List Char) :=
  buildChunks maxChars [] (splitIntoSentences text)

/-- Joining a chunk list with single spaces (the inverse of the packing step;
used to state the re-segmentation property). -/
def joinWithSpace : List (List Char) → List Char
  | [] => []
  | [c] => c
  | c :: rest => c ++ ' ' :: joinWithSpace rest

/-- `SAMPLE_RATE` from src/types.ts. -/
def SAMPLE_RATE : Nat := 24000

/-- `NUM_CHANNELS` from src/types.ts. -/
def NUM_CHANNELS : Nat := 1

/-- Little-endian bytes of `DataView.setUint16(…, true)` (value truncated to
16 bits by the byte extraction). -/
def writeU16 (v : Nat) : List Nat :=
  [v % 256, v / 256 % 256]

/-- Little-endian bytes of `DataView.setUint32(…, true)` (value truncated to
32 bits by the byte extraction). -/
def writeU32 (v : Nat) : List Nat :=
  [v % 256, v / 256 % 256, v / 65536 % 256, v / 16777216 % 256]

/-- `writeString` (src/utils/audioUtils.ts:144-148): ASCII bytes of a tag. -/
def asciiBytes (s : String) : List Nat :=
  s.toList.map (fun c => c.toNat % 256)

/-- `createWavFile` (src/utils/audioUtils.ts:74-99): the 44-byte RIFF/WAVE
header followed by the raw PCM bytes. -/
def createWavFile (pcmData : List Nat) : List Nat :=
  asciiBytes "RIFF" ++ writeU32 (36 + pcmData.length) ++ asciiBytes "WAVE" ++
  asciiBytes "fmt " ++ writeU32 16 ++ writeU16 1 ++ writeU16 NUM_CHANNELS ++
  writeU32 SAMPLE_RATE ++ writeU32 (SAMPLE_RATE * NUM_CHANNELS * 2) ++
  writeU16 (NUM_CHANNELS * 2) ++ writeU16 16 ++ asciiBytes "data" ++
  writeU32 pcmData.length ++ pcmData

/-- Little-endian 16-bit read at a byte offset (missing bytes read as 0). -/
def readU16 (bs : List Nat) (off : Nat) : Nat :=
  match bs.drop off with
  | [] => 0
  | [b0] => b0
  | b0 :: b1 :: _ => b0 + 256 * b1

/-- Little-endian 32-bit read at a byte offset (missing bytes read as 0). -/
def readU32 (bs : List Nat) (off : Nat) : Nat :=
  match bs.drop off with
  | [] => 0
  | [b0] => b0
  | [b0, b1] => b0 + 256 * b1
  | [b0, b1, b2] => b0 + 256 * b1 + 65536 * b2
  | b0 :: b1 :: b2 :: b3 :: _ => b0 + 256 * b1 + 65536 * b2 + 16777216 * b3

/-- `concatenateAudioBuffers` (src/utils/audioUtils.ts:59-68): ordered
concatenation of the PCM buffers. -/
def concatenateAudioBuffers : List (List Nat) → List Nat
  | [] => []
  | b :: rest => b ++ concatenateAudioBuffers rest

/-- Model of the external MP3 encoder object (`window.lamejs` /
`new window.lamejs.Mp3Encoder(...)`): an abstract block encoder. -/
structure LameJs where
  encodeBlock : List Int → List Nat
  flushData : List Nat

/-- Reinterpretation of the PCM byte buffer as 16-bit signed little-endian
samples (`new Int16Array(pcmData.buffer, …)` in src/utils/audioUtils.ts:117). -/
def bytesToInt16 : List Nat → List Int
  | lo :: hi :: rest =>
    (if lo % 256 + 256 * (hi % 256) < 32768 then ((lo % 256 + 256 * (hi % 256) : Nat) : Int)
     else ((lo % 256 + 256 * (hi % 256) : Nat) : Int) - 65536) :: bytesToInt16 rest
  | _ => []

/-- The block-encoding loop of `createMp3File`
(src/utils/audioUtils.ts:126-134): feed 1152-sample blocks through the
encoder, keeping the non-empty outputs. -/
def blockEncode (enc : LameJs) : List Int → List (List Nat)
  | [] => []
  | s :: rest =>
    let out := enc.encodeBlock ((s :: rest).take 1152)
    let more := blockEncode enc ((s :: rest).drop 1152)
    if out.length > 0 then out :: more else more
termination_by l => l.length
decreasing_by simp [List.length_drop]; omega

/-- `createMp3File` (src/utils/audioUtils.ts:111-142).  The availability of
the external encoder is the `Option LameJs` argument (`window.lamejs`); when
it is missing the function throws, modelled as `Except.error`. -/
def createMp3File (lamejs : Option LameJs) (pcmData : List Nat) :
    Except String (List (List Nat)) :=
  match lamejs with
  | none => Except.error "MP3 encoder library (lamejs) failed to load."
  | some enc =>
    let frames := blockEncode enc (bytesToInt16 pcmData)
    Except.ok (if enc.flushData.length > 0 then frames ++ [enc.flushData] else frames)

/-- `AudioFormat` from src/types.ts. -/
inductive AudioFormat where
  | wav
  | mp3
deriving DecidableEq, Repr

/-- The format dispatch of `generateBlobFromChunks` / the final-assembly step
of `handleGenerate` (src/App.tsx): WAV wraps the PCM, MP3 goes through the
external encoder. -/
def exportBlob (lamejs : Option LameJs) (format : AudioFormat) (pcm : List Nat) :
    Except String (List Nat) :=
  match format with
  | AudioFormat.wav => Except.ok (createWavFile pcm)
  | AudioFormat.mp3 =>
    (createMp3File lamejs pcm).map (fun parts => concatenateAudioBuffers parts)

/-- Outcome of one call to `generateSpeechChunk` as observed by
`handleGenerate`: either PCM bytes (the base64 payload already decoded by
`base64ToUint8Array`) or a failure whose `isRateLimit` flag the loop
inspects. -/
inductive SynthResult where
  | success : List Nat → SynthResult
  | failure : Bool → String → SynthResult
deriving DecidableEq, Repr

/-- Events of a generation run, in the order they happen: a synthesis attempt
(`call i a f`: chunk index `i`, 0-based attempt number `a`, `f = none` for
success and `f = some rl` for a failure with `isRateLimit = rl`), an
intra-chunk retry wait, the per-chunk export attempt (`exportTried i te`,
`te` true when the export threw), and the inter-chunk pacing wait. -/
inductive Ev where
  | call : Nat → Nat → Option Bool → Ev
  | retryWait : ℚ → Ev
  | exportTried : Nat → Bool → Ev
  | pace : Nat → Ev
deriving DecidableEq, Repr

/-- Result state of the per-chunk retry loop (src/App.tsx:922-935 region of
`handleGenerate`): the trace of events, the (possibly ratcheted)
`interChunkDelay`, and either a thrown error, or `some pcm` on success, or
`none` when the `while` guard stops the loop without data. -/
structure AttemptOut where
  events : List Ev
  delayIC : Nat
  result : Except String (Option (List Nat))
deriving Repr

/-- The `while (attempts < maxRetries && !pcmData && !abortRef.current)` retry
loop of `handleGenerate` for chunk `i` (src/App.tsx).  `synth i a` is the
outcome of the a-th call to `generateSpeechChunk` for chunk `i`; `fuel`
counts the remaining iterations allowed by the guard
(`fuel = maxRetries - attempts`, with `maxRetries = 15`); `attempts` and
`delayIC` mirror the mutable `attempts` and `interChunkDelay` variables.
On a failure the loop ratchets `interChunkDelay` to 6000 for a rate limit,
increments `attempts`, throws after a non-rate-limit failure once
`attempts >= 3`, throws when `attempts >= 15`, and otherwise waits
`2000 * 1.5 ^ attempts` ms (rate limit: `10000 + attempts * 5000` ms) before
retrying. -/
def attemptLoop (synth : Nat → Nat → SynthResult) (i : Nat) :
    Nat → Nat → Nat → AttemptOut
  | 0, _, delayIC => ⟨[], delayIC, Except.ok none⟩
  | fuel + 1, attempts, delayIC =>
    match synth i attempts with
    | SynthResult.success pcm =>
      ⟨[Ev.call i attempts none], delayIC, Except.ok (some pcm)⟩
    | SynthResult.failure isRL msg =>
      let delayIC2 := if isRL then 6000 else delayIC
      let a2 := attempts + 1
      if isRL = false ∧ 3 ≤ a2 then
        ⟨[Ev.call i attempts (some isRL)], delayIC2,
          Except.error ("Failed to generate part " ++ toString (i + 1) ++ ". " ++ msg)⟩
      else if 15 ≤ a2 then
        ⟨[Ev.call i attempts (some isRL)], delayIC2,
          Except.error ("Failed to generate part " ++ toString (i + 1) ++ ". " ++
            (if isRL then "Quota exceeded. Aborting." else msg))⟩
      else
        let w : ℚ := if isRL then ((10000 + a2 * 5000 : Nat) : ℚ)
          else (2000 : ℚ) * (3 / 2) ^ a2
        let rest := attemptLoop synth i fuel a2 delayIC2
        ⟨Ev.call i attempts (some isRL) :: Ev.retryWait w :: rest.events,
          rest.delayIC, rest.result⟩

/-- Observable result of a generation run: the event trace, the
`collectedBuffers` array, the chunk ids whose status was set to `completed`
during the run, and the error of the surrounding `try/catch` if one was
thrown. -/
structure RunResult where
  events : List Ev
  buffers : List (List Nat)
  completed : List Nat
  error : Option String
deriving Repr

/-- The `for (let i = startIndex; i < textChunksToProcess.length; i++)` loop
of `handleGenerate` (src/App.tsx), processing the remaining chunk texts with
`i` the index of the first of them and `delayIC` the current
`interChunkDelay`.  After a successful chunk its PCM is collected, the chunk
is marked completed, and the per-chunk auto-download is attempted inside its
own `try/catch` (`expFail i` tells whether that export throws; the error is
swallowed).  Between chunks (`i < length - 1`) the loop waits
`interChunkDelay` ms.  A thrown retry-loop error aborts the whole run. -/
def runFrom (synth : Nat → Nat → SynthResult) (expFail : Nat → Bool) :
    List (List Char) → Nat → Nat → RunResult
  | [], _, _ => ⟨[], [], [], none⟩
  | _chunk :: rest, i, delayIC =>
    let a := attemptLoop synth i 15 0 delayIC
    match a.result with
    | Except.error msg => ⟨a.events, [], [], some msg⟩
    | Except.ok po =>
      let colEvs : List Ev :=
        match po with
        | some _ => [Ev.exportTried i (expFail i)]
        | none => []
      let bufs : List (List Nat) := match po with | some pcm => [pcm] | none => []
      let comp : List Nat := match po with | some _ => [i] | none => []
      let paceEvs : List Ev := if rest = [] then [] else [Ev.pace a.delayIC]
      let r := runFrom synth expFail rest (i + 1) a.delayIC
      ⟨a.events ++ colEvs ++ paceEvs ++ r.events, bufs ++ r.buffers,
        comp ++ r.completed, r.error⟩

/-- A full generation run started at `startIndex = k` over the given chunk
list: chunks before `k` are skipped (treated as already satisfied), and the
initial `interChunkDelay` is 2000 ms (src/App.tsx `let interChunkDelay =
2000`). -/
def runGen (synth : Nat → Nat → SynthResult) (expFail : Nat → Bool)
    (chunks : List (List Char)) (k : Nat) : RunResult :=
  runFrom synth expFail (chunks.drop k) k 2000

/-- The final WAV assembly of `handleGenerate`: only when no error was thrown
and at least one buffer was collected, the concatenation of the collected
buffers is wrapped in a WAV container. -/
def finalWavArtifact (r : RunResult) : Option (List Nat) :=
  match r.error with
  | some _ => none
  | none =>
    match r.buffers with
    | [] => none
    | _ :: _ => some (createWavFile (concatenateAudioBuffers r.buffers))

/-- Chunk index of a `call` event. -/
def callIdx (e : Ev) : Option Nat :=
  match e with
  | Ev.call i _ _ => some i
  | _ => none

/-- Chunk index and attempt number of a `call` event. -/
def callIdxAttempt (e : Ev) : Option (Nat × Nat) :=
  match e with
  | Ev.call i a _ => some (i, a)
  | _ => none

/-- Delay of a `pace` event. -/
def paceOf (e : Ev) : Option Nat :=
  match e with
  | Ev.pace d => some d
  | _ => none

/-- Is the event a synthesis attempt that failed with a rate limit? -/
def isRLCall (e : Ev) : Bool :=
  match e with
  | Ev.call _ _ (some true) => true
  | _ => false

/-- Does the trace contain a rate-limited synthesis failure? -/
def hasRL (l : List Ev) : Bool :=
  l.any isRLCall

/-- The chunk indices of the synthesis calls of a trace, in order. -/
def callIdxs (l : List Ev) : List Nat :=
  l.filterMap callIdx

/-- The pacing delays of a trace, in order. -/
def paceDelays (l : List Ev) : List Nat :=
  l.filterMap paceOf

/-- The example input text of the end-to-end property. -/
def helloText : List Char :=
  "Hello world. This is a test. Another sentence here.".toList

/-- A synthesis stub that always succeeds with 100 zero-valued PCM bytes. -/
def stubSynth : Nat → Nat → SynthResult :=
  fun _ _ => SynthResult.success (List.replicate 100 0)

/-- Per-chunk export oracle for a run in which no export throws. -/
def noExpFail : Nat → Bool :=
  fun _ => false

set_option maxRecDepth 4000 in
/-- C1.  End-to-end example: the text "Hello world. This is a test. Another
sentence here." with maxChars = 20 segments into exactly the three chunks
"Hello world.", "This is a test.", "Another sentence here.", and a run over
these chunks with a synthesis stub that always succeeds with 100 zero PCM
bytes per chunk (no failures, no cancellation, startIndex = 0) produces a
final WAV artifact of exactly 44 + 300 = 344 bytes whose Subchunk2Size
header field equals 300. -/
theorem endToEndExample :
    createSmartChunks helloText 20 =
      ["Hello world.".toList, "This is a test.".toList, "Another sentence here.".toList] ∧
    (finalWavArtifact (runGen stubSynth noExpFail (createSmartChunks helloText 20) 0)).map
      List.length = some 344 ∧
    (finalWavArtifact (runGen stubSynth noExpFail (createSmartChunks helloText 20) 0)).map
      (fun w => readU32 w 40) = some 300 := by
  decide

/-- Field-level description of the WAV container produced for a PCM buffer:
a 44-byte header holding the RIFF tag, ChunkSize 36 + L, the PCM format tag 1,
mono, 24000 Hz, ByteRate 48000, BlockAlign 2, BitsPerSample 16 and
Subchunk2Size L, followed by the raw PCM bytes. -/
def wavHeaderProps (pcm : List Nat) : Prop :=
  (createWavFile pcm).length = 44 + pcm.length ∧
  (createWavFile pcm).take 4 = [82, 73, 70, 70] ∧
  (createWavFile pcm).drop 44 = pcm ∧
  readU32 (createWavFile pcm) 4 = 36 + pcm.length ∧
  readU16 (createWavFile pcm) 20 = 1 ∧
  readU16 (createWavFile pcm) 22 = 1 ∧
  readU32 (createWavFile pcm) 24 = 24000 ∧
  readU32 (createWavFile pcm) 28 = 48000 ∧
  readU16 (createWavFile pcm) 32 = 2 ∧
  readU16 (createWavFile pcm) 34 = 16 ∧
  readU32 (createWavFile pcm) 40 = pcm.length

/-- The WAV container written byte by byte: the header fields of
src/utils/audioUtils.ts:79-95 in order, then the PCM data. -/
theorem createWavFile_flat (pcm : List Nat) : createWavFile pcm =
    82 :: 73 :: 70 :: 70 ::
      ((36 + pcm.length) % 256) :: ((36 + pcm.length) / 256 % 256) ::
      ((36 + pcm.length) / 65536 % 256) :: ((36 + pcm.length) / 16777216 % 256) ::
      87 :: 65 :: 86 :: 69 :: 102 :: 109 :: 116 :: 32 ::
      16 :: 0 :: 0 :: 0 :: 1 :: 0 :: 1 :: 0 ::
      192 :: 93 :: 0 :: 0 :: 128 :: 187 :: 0 :: 0 ::
      2 :: 0 :: 16 :: 0 :: 100 :: 97 :: 116 :: 97 ::
      (pcm.length % 256) :: (pcm.length / 256 % 256) ::
      (pcm.length / 65536 % 256) :: (pcm.length / 16777216 % 256) :: pcm := by
  have hr : asciiBytes "RIFF" = [82, 73, 70, 70] := rfl
  have hw : asciiBytes "WAVE" = [87, 65, 86, 69] := rfl
  have hf : asciiBytes "fmt " = [102, 109, 116, 32] := rfl
  have hd : asciiBytes "data" = [100, 97, 116, 97] := rfl
  simp [createWavFile, hr, hw, hf, hd, writeU16, writeU32, SAMPLE_RATE, NUM_CHANNELS]

theorem wav_len (pcm : List Nat) : (createWavFile pcm).length = 44 + pcm.length := by
  rw [createWavFile_flat]; simp; omega

theorem wav_take4 (pcm : List Nat) : (createWavFile pcm).take 4 = [82, 73, 70, 70] := by
  rw [createWavFile_flat]; rfl

theorem wav_drop44 (pcm : List Nat) : (createWavFile pcm).drop 44 = pcm := by
  rw [createWavFile_flat]; rfl

theorem wav_chunkSize (pcm : List Nat) (h : 36 + pcm.length < 4294967296) :
    readU32 (createWavFile pcm) 4 = 36 + pcm.length := by
  rw [createWavFile_flat]
  have hdig : readU32 (82 :: 73 :: 70 :: 70 ::
      ((36 + pcm.length) % 256) :: ((36 + pcm.length) / 256 % 256) ::
      ((36 + pcm.length) / 65536 % 256) :: ((36 + pcm.length) / 16777216 % 256) ::
      87 :: 65 :: 86 :: 69 :: 102 :: 109 :: 116 :: 32 ::
      16 :: 0 :: 0 :: 0 :: 1 :: 0 :: 1 :: 0 ::
      192 :: 93 :: 0 :: 0 :: 128 :: 187 :: 0 :: 0 ::
      2 :: 0 :: 16 :: 0 :: 100 :: 97 :: 116 :: 97 ::
      (pcm.length % 256) :: (pcm.length / 256 % 256) ::
      (pcm.length / 65536 % 256) :: (pcm.length / 16777216 % 256) :: pcm) 4 =
      (36 + pcm.length) % 256 + 256 * ((36 + pcm.length) / 256 % 256) +
      65536 * ((36 + pcm.length) / 65536 % 256) +
      16777216 * ((36 + pcm.length) / 16777216 % 256) := rfl
  rw [hdig]; omega

theorem wav_fmtTag (pcm : List Nat) : readU16 (createWavFile pcm) 20 = 1 := by
  rw [createWavFile_flat]; rfl

theorem wav_channels (pcm : List Nat) : readU16 (createWavFile pcm) 22 = 1 := by
  rw [createWavFile_flat]; rfl

theorem wav_sampleRate (pcm : List Nat) : readU32 (createWavFile pcm) 24 = 24000 := by
  rw [createWavFile_flat]; rfl

theorem wav_byteRate (pcm : List Nat) : readU32 (createWavFile pcm) 28 = 48000 := by
  rw [createWavFile_flat]; rfl

theorem wav_blockAlign (pcm : List Nat) : readU16 (createWavFile pcm) 32 = 2 := by
  rw [createWavFile_flat]; rfl

theorem wav_bps (pcm : List Nat) : readU16 (createWavFile pcm) 34 = 16 := by
  rw [createWavFile_flat]; rfl

theorem wav_dataSize (pcm : List Nat) (h : pcm.length < 4294967296) :
    readU32 (createWavFile pcm) 40 = pcm.length := by
  rw [createWavFile_flat]
  have hdig : readU32 (82 :: 73 :: 70 :: 70 ::
      ((36 + pcm.length) % 256) :: ((36 + pcm.length) / 256 % 256) ::
      ((36 + pcm.length) / 65536 % 256) :: ((36 + pcm.length) / 16777216 % 256) ::
      87 :: 65 :: 86 :: 69 :: 102 :: 109 :: 116 :: 32 ::
      16 :: 0 :: 0 :: 0 :: 1 :: 0 :: 1 :: 0 ::
      192 :: 93 :: 0 :: 0 :: 128 :: 187 :: 0 :: 0 ::
      2 :: 0 :: 16 :: 0 :: 100 :: 97 :: 116 :: 97 ::
      (pcm.length % 256) :: (pcm.length / 256 % 256) ::
      (pcm.length / 65536 % 256) :: (pcm.length / 16777216 % 256) :: pcm) 40 =
      pcm.length % 256 + 256 * (pcm.length / 256 % 256) +
      65536 * (pcm.length / 65536 % 256) +
      16777216 * (pcm.length / 16777216 % 256) := rfl
  rw [hdig]; omega

/-- C5.  WAV header correctness: for every PCM byte array whose length fits a
32-bit size field (a `Uint8Array`/`ArrayBuffer` length always does),
`createWavFile` produces the 44-byte RIFF/WAVE header followed by the raw PCM
bytes, with little-endian fields ChunkSize = 36 + L, AudioFormat = 1,
NumChannels = 1, SampleRate = 24000, ByteRate = 48000, BlockAlign = 2,
BitsPerSample = 16 and Subchunk2Size = L. -/
theorem wavHeaderCorrect (pcm : List Nat) (h : 36 + pcm.length < 4294967296) :
    wavHeaderProps pcm :=
  ⟨wav_len pcm, wav_take4 pcm, wav_drop44 pcm, wav_chunkSize pcm h, wav_fmtTag pcm,
    wav_channels pcm, wav_sampleRate pcm, wav_byteRate pcm, wav_blockAlign pcm,
    wav_bps pcm, wav_dataSize pcm (by omega)⟩

/-- Witness for C5 at the concrete PCM buffer [1, 2, 3]. -/
theorem wavHeaderCorrect_witness :
    36 + ([1, 2, 3] : List Nat).length < 4294967296 ∧ wavHeaderProps [1, 2, 3] :=
  ⟨by decide, wavHeaderCorrect [1, 2, 3] (by decide)⟩

/-- Every chunk produced by the greedy packing loop either fits the character
budget or is one of the sentences it was fed (packing never joins sentences
beyond the budget). -/
theorem buildChunks_mem_bound (maxChars : Nat) (L : List (List Char)) :
    ∀ (ss : List (List Char)) (cur : List Char), (∀ s ∈ ss, s ∈ L) →
    (cur.length ≤ maxChars ∨ cur ∈ L) →
    ∀ chunk ∈ buildChunks maxChars cur ss, chunk.length ≤ maxChars ∨ chunk ∈ L := by
  intro ss
  induction ss with
  | nil =>
    intro cur _ hcur chunk hchunk
    by_cases hc : cur = [] <;> simp [buildChunks, hc] at hchunk
    exact hchunk ▸ hcur
  | cons s rest ih =>
    intro cur hss hcur chunk hchunk
    have hsL : s ∈ L := hss s (by simp)
    have hrest : ∀ t ∈ rest, t ∈ L := fun t ht => hss t (by simp [ht])
    rw [buildChunks] at hchunk
    by_cases hfit : cur.length + s.length + 1 ≤ maxChars
    · rw [if_pos hfit] at hchunk
      by_cases hc : cur = []
      · exact ih _ hrest (by rw [if_pos hc] at hchunk ⊢; exact Or.inr hsL) chunk hchunk
      · rw [if_neg hc] at hchunk
        refine ih _ hrest (Or.inl ?_) chunk hchunk
        simp only [List.length_append, List.length_cons]
        omega
    · rw [if_neg hfit] at hchunk
      by_cases hc : cur = []
      · rw [if_pos hc] at hchunk
        exact ih _ hrest (Or.inr hsL) chunk hchunk
      · rw [if_neg hc] at hchunk
        rcases List.mem_cons.mp hchunk with heq | hmem
        · exact heq ▸ hcur
        · exact ih _ hrest (Or.inr hsL) chunk hmem

/-- C6.  Size bound: every chunk produced by segmentation either has length
at most maxChars, or is exactly one single sentence of the input whose own
length exceeds maxChars; an oversized chunk is never formed by joining two or
more sentences. -/
theorem chunkSizeBound (text : List Char) (maxChars : Nat) (_h : 0 < maxChars) :
    ∀ chunk ∈ createSmartChunks text maxChars,
      chunk.length ≤ maxChars ∨
      (chunk ∈ splitIntoSentences text ∧ maxChars < chunk.length) := by
  intro chunk hchunk
  have hmain := buildChunks_mem_bound maxChars (splitIntoSentences text)
    (splitIntoSentences text) [] (fun s hs => hs) (Or.inl (by simp)) chunk hchunk
  rcases hmain with h1 | h2
  · exact Or.inl h1
  · rcases le_or_lt chunk.length maxChars with hle | hlt
    · exact Or.inl hle
    · exact Or.inr ⟨h2, hlt⟩

/-- Witness for C6 on the example text with maxChars = 20. -/
theorem chunkSizeBound_witness :
    0 < 20 ∧ ∀ chunk ∈ createSmartChunks helloText 20,
      chunk.length ≤ 20 ∨ (chunk ∈ splitIntoSentences helloText ∧ 20 < chunk.length) :=
  ⟨by decide, chunkSizeBound helloText 20 (by decide)⟩

/-- C9.  Encoding availability: MP3 export fails with the encoder-unavailable
error when the external encoder (`window.lamejs`) is absent, and this failure
affects only the MP3 format: WAV export never consults the encoder and
succeeds for every PCM byte array (`createWavFile` is total). -/
theorem mp3EncoderAvailability :
    (∀ pcm : List Nat, exportBlob none AudioFormat.mp3 pcm =
      Except.error "MP3 encoder library (lamejs) failed to load.") ∧
    (∀ (lamejs : Option LameJs) (pcm : List Nat),
      exportBlob lamejs AudioFormat.wav pcm = Except.ok (createWavFile pcm)) :=
  ⟨fun _ => rfl, fun _ _ => rfl⟩

/-- `callIdxs` distributes over append. -/
theorem callIdxs_append (l1 l2 : List Ev) :
    callIdxs (l1 ++ l2) = callIdxs l1 ++ callIdxs l2 :=
  List.filterMap_append l1 l2 callIdx

/-- `paceDelays` distributes over append. -/
theorem paceDelays_append (l1 l2 : List Ev) :
    paceDelays (l1 ++ l2) = paceDelays l1 ++ paceDelays l2 :=
  List.filterMap_append l1 l2 paceOf

/-- `hasRL` distributes over append. -/
theorem hasRL_append (l1 l2 : List Ev) :
    hasRL (l1 ++ l2) = (hasRL l1 || hasRL l2) :=
  List.any_append

/-- Membership in `paceDelays` is the presence of the pace event. -/
theorem mem_paceDelays (p : Nat) (l : List Ev) :
    p ∈ paceDelays l ↔ Ev.pace p ∈ l := by
  unfold paceDelays
  rw [List.mem_filterMap]
  constructor
  · rintro ⟨e, he, hpe⟩
    cases e <;> simp [paceOf] at hpe
    exact hpe ▸ he
  · intro h
    exact ⟨Ev.pace p, h, rfl⟩

/-- Unfolding of the chunk loop when the retry loop throws. -/
theorem runFrom_cons_error (synth : Nat → Nat → SynthResult) (expFail : Nat → Bool)
    (c : List Char) (rest : List (List Char)) (i d : Nat) (msg : String)
    (h : (attemptLoop synth i 15 0 d).result = Except.error msg) :
    runFrom synth expFail (c :: rest) i d =
      ⟨(attemptLoop synth i 15 0 d).events, [], [], some msg⟩ := by
  simp [runFrom, h]

/-- Unfolding of the chunk loop when the retry loop returns successfully. -/
theorem runFrom_cons_ok (synth : Nat → Nat → SynthResult) (expFail : Nat → Bool)
    (c : List Char) (rest : List (List Char)) (i d : Nat) (po : Option (List Nat))
    (h : (attemptLoop synth i 15 0 d).result = Except.ok po) :
    runFrom synth expFail (c :: rest) i d =
      ⟨(attemptLoop synth i 15 0 d).events ++
        (match po with | some _ => [Ev.exportTried i (expFail i)] | none => []) ++
        ((if rest = [] then [] else [Ev.pace (attemptLoop synth i 15 0 d).delayIC]) ++
          (runFrom synth expFail rest (i + 1) (attemptLoop synth i 15 0 d).delayIC).events),
       (match po with | some pcm => [pcm] | none => []) ++
         (runFrom synth expFail rest (i + 1) (attemptLoop synth i 15 0 d).delayIC).buffers,
       (match po with | some _ => [i] | none => []) ++
         (runFrom synth expFail rest (i + 1) (attemptLoop synth i 15 0 d).delayIC).completed,
       (runFrom synth expFail rest (i + 1) (attemptLoop synth i 15 0 d).delayIC).error⟩ := by
  simp [runFrom, h]
  cases po <;> simp

/-- When the first three attempts for chunk `i` are non-rate-limit failures,
the retry loop makes exactly those three calls (with the two exponential
backoff waits between them) and throws the fail-fast error carrying the last
message, leaving the pacing delay unchanged. -/
theorem attemptLoop_three_nonRL (synth : Nat → Nat → SynthResult) (i d : Nat)
    (m0 m1 m2 : String)
    (h0 : synth i 0 = SynthResult.failure false m0)
    (h1 : synth i 1 = SynthResult.failure false m1)
    (h2 : synth i 2 = SynthResult.failure false m2) :
    attemptLoop synth i 15 0 d =
      ⟨[Ev.call i 0 (some false), Ev.retryWait ((2000 : ℚ) * (3 / 2) ^ 1),
        Ev.call i 1 (some false), Ev.retryWait ((2000 : ℚ) * (3 / 2) ^ 2),
        Ev.call i 2 (some false)], d,
        Except.error ("Failed to generate part " ++ toString (i + 1) ++ ". " ++ m2)⟩ := by
  simp [show (15 : Nat) = 14 + 1 from rfl, show (14 : Nat) = 13 + 1 from rfl,
    show (13 : Nat) = 12 + 1 from rfl, attemptLoop, h0, h1, h2]

/-- C2.  Fail-fast rule: if from the moment a chunk is dispatched its first
3 synthesis attempts are all non-rate-limit failures, the run terminates
immediately with an error: the remaining synthesis calls of the whole run are
exactly attempts 0, 1 and 2 for that chunk, so no 4th attempt is made for it
and no subsequent chunk is dispatched, even though the overall attempt cap is
15.  (`runFrom synth expFail (c :: rest) i d` is the state of a run whose
loop has reached chunk `i`; the statement holds for every pacing delay `d`
and every list of pending chunks.) -/
theorem failFast (synth : Nat → Nat → SynthResult) (expFail : Nat → Bool)
    (c : List Char) (rest : List (List Char)) (i d : Nat) (m0 m1 m2 : String)
    (h0 : synth i 0 = SynthResult.failure false m0)
    (h1 : synth i 1 = SynthResult.failure false m1)
    (h2 : synth i 2 = SynthResult.failure false m2) :
    (runFrom synth expFail (c :: rest) i d).events.filterMap callIdxAttempt
      = [(i, 0), (i, 1), (i, 2)] ∧
    (runFrom synth expFail (c :: rest) i d).error
      = some ("Failed to generate part " ++ toString (i + 1) ++ ". " ++ m2) := by
  have hal := attemptLoop_three_nonRL synth i d m0 m1 m2 h0 h1 h2
  have herr : (attemptLoop synth i 15 0 d).result =
      Except.error ("Failed to generate part " ++ toString (i + 1) ++ ". " ++ m2) := by
    rw [hal]
  rw [runFrom_cons_error synth expFail c rest i d _ herr, hal]
  simp [callIdxAttempt]

/-- Witness for C2: a synthesis oracle that always fails without a rate
limit, one pending chunk after the failing one. -/
theorem failFast_witness :
    ((fun _ _ => SynthResult.failure false "boom") : Nat → Nat → SynthResult) 0 0
        = SynthResult.failure false "boom" ∧
    (runFrom (fun _ _ => SynthResult.failure false "boom") noExpFail
        [['a'], ['b']] 0 2000).events.filterMap callIdxAttempt
      = [(0, 0), (0, 1), (0, 2)] ∧
    (runFrom (fun _ _ => SynthResult.failure false "boom") noExpFail
        [['a'], ['b']] 0 2000).error
      = some ("Failed to generate part " ++ toString (0 + 1) ++ ". " ++ "boom") :=
  ⟨rfl, failFast (fun _ _ => SynthResult.failure false "boom") noExpFail
    ['a'] [['b']] 0 2000 "boom" "boom" "boom" rfl rfl rfl⟩

/-- C10.  The per-chunk artifact export runs inside its own try/catch and a
thrown export error is swallowed: for any two export-failure oracles the run
collects the same PCM buffers, marks the same chunks completed, ends with the
same error, and performs the same synthesis calls and pacing waits — so a
chunk whose export throws keeps status completed, its PCM stays in the
collected buffers used for final assembly, and the run goes on to dispatch
the remaining chunks. -/
theorem exportFailureSwallowed (synth : Nat → Nat → SynthResult)
    (f g : Nat → Bool) :
    ∀ (rest : List (List Char)) (i d : Nat),
    (runFrom synth f rest i d).buffers = (runFrom synth g rest i d).buffers ∧
    (runFrom synth f rest i d).completed = (runFrom synth g rest i d).completed ∧
    (runFrom synth f rest i d).error = (runFrom synth g rest i d).error ∧
    (runFrom synth f rest i d).events.filterMap callIdxAttempt
      = (runFrom synth g rest i d).events.filterMap callIdxAttempt ∧
    paceDelays (runFrom synth f rest i d).events
      = paceDelays (runFrom synth g rest i d).events := by
  intro rest
  induction rest with
  | nil => intro i d; exact ⟨rfl, rfl, rfl, rfl, rfl⟩
  | cons c rest ih =>
    intro i d
    rcases hres : (attemptLoop synth i 15 0 d).result with msg | po
    · rw [runFrom_cons_error synth f c rest i d msg hres,
        runFrom_cons_error synth g c rest i d msg hres]
      exact ⟨rfl, rfl, rfl, rfl, rfl⟩
    · rw [runFrom_cons_ok synth f c rest i d po hres,
        runFrom_cons_ok synth g c rest i d po hres]
      obtain ⟨hb, hc, he, hcall, hpace⟩ := ih (i + 1) (attemptLoop synth i 15 0 d).delayIC
      refine ⟨by rw [hb], by rw [hc], by rw [he], ?_, ?_⟩
      · cases po <;>
          simp [List.filterMap_append, hcall, callIdxAttempt]
      · simp only [paceDelays] at hpace
        cases po <;>
          simp [paceDelays, List.filterMap_append, paceOf, hpace]

/-- The synthesis calls of the retry loop for chunk `i` all carry index `i`. -/
theorem attemptLoop_calls (synth : Nat → Nat → SynthResult) (i : Nat) :
    ∀ (fuel a d : Nat), ∀ j ∈ callIdxs (attemptLoop synth i fuel a d).events, j = i := by
  intro fuel
  induction fuel with
  | zero => intro a d j hj; simp [attemptLoop, callIdxs] at hj
  | succ fuel ih =>
    intro a d j hj
    rcases hs : synth i a with pcm | ⟨isRL, msg⟩
    · simp [attemptLoop, hs, callIdxs, callIdx] at hj
      exact hj
    · simp only [attemptLoop, hs] at hj
      split at hj
      · simp [callIdxs, callIdx] at hj; exact hj
      · split at hj
        · simp [callIdxs, callIdx] at hj; exact hj
        · simp [callIdxs, callIdx] at hj
          rcases hj with hj | hj
          · exact hj
          · exact ih _ _ j (List.mem_filterMap.mpr hj)

/-- When the retry loop runs at all, its first event is the synthesis call
for the current attempt. -/
theorem attemptLoop_head (synth : Nat → Nat → SynthResult) (i fuel a d : Nat)
    (h : 0 < fuel) :
    ∃ rl tl, (attemptLoop synth i fuel a d).events = Ev.call i a rl :: tl := by
  cases fuel with
  | zero => exact absurd h (lt_irrefl 0)
  | succ fuel =>
    rcases hs : synth i a with pcm | ⟨isRL, msg⟩
    · exact ⟨none, [], by simp [attemptLoop, hs]⟩
    · simp only [attemptLoop, hs]
      split
      · exact ⟨some isRL, [], rfl⟩
      · split
        · exact ⟨some isRL, [], rfl⟩
        · exact ⟨some isRL, _, rfl⟩

/-- Call indices of the optional export event. -/
theorem callIdxs_export (po : Option (List Nat)) (i : Nat) (b : Bool) :
    callIdxs (match po with | some _ => [Ev.exportTried i b] | none => []) = [] := by
  cases po <;> rfl

/-- Call indices of the optional pacing event. -/
theorem callIdxs_ite_pace (P : Prop) [Decidable P] (d : Nat) :
    callIdxs (if P then ([] : List Ev) else [Ev.pace d]) = [] := by
  split <;> rfl

/-- Every synthesis call of the remaining-chunk loop is for the current or a
later index. -/
theorem runFrom_calls_ge (synth : Nat → Nat → SynthResult) (expFail : Nat → Bool) :
    ∀ (rest : List (List Char)) (i d : Nat),
      ∀ j ∈ callIdxs (runFrom synth expFail rest i d).events, i ≤ j := by
  intro rest
  induction rest with
  | nil => intro i d j hj; simp [runFrom, callIdxs] at hj
  | cons c rest ih =>
    intro i d j hj
    rcases hres : (attemptLoop synth i 15 0 d).result with msg | po
    · rw [runFrom_cons_error synth expFail c rest i d msg hres] at hj
      exact le_of_eq (attemptLoop_calls synth i 15 0 d j hj).symm
    · have hin : ∀ X : List Ev, callIdxs X = [] →
        j ∈ callIdxs ((attemptLoop synth i 15 0 d).events ++ X ++
          ((if rest = [] then [] else [Ev.pace (attemptLoop synth i 15 0 d).delayIC]) ++
            (runFrom synth expFail rest (i + 1)
              (attemptLoop synth i 15 0 d).delayIC).events)) → i ≤ j := by
        intro X hX hj
        rw [callIdxs_append, callIdxs_append, hX, callIdxs_append,
          callIdxs_ite_pace] at hj
        simp only [List.append_nil, List.nil_append, List.mem_append] at hj
        rcases hj with hj | hj
        · exact le_of_eq (attemptLoop_calls synth i 15 0 d j hj).symm
        · exact le_trans (Nat.le_succ i) (ih (i + 1) _ j hj)
      cases po with
      | none =>
        rw [runFrom_cons_ok synth expFail c rest i d none hres] at hj
        exact hin [] rfl hj
      | some pcm =>
        rw [runFrom_cons_ok synth expFail c rest i d (some pcm) hres] at hj
        exact hin [Ev.exportTried i (expFail i)] rfl hj

/-- A list of naturals that are all equal is weakly increasing. -/
theorem chain'_le_of_all_eq (i : Nat) :
    ∀ l : List Nat, (∀ x ∈ l, x = i) → l.Chain' (· ≤ ·)
  | [], _ => List.chain'_nil
  | [_], _ => by simp
  | x :: y :: l, h => by
    rw [List.chain'_cons]
    constructor
    · have hx := h x (by simp)
      have hy := h y (by simp)
      omega
    · exact chain'_le_of_all_eq i (y :: l) (fun z hz => h z (List.mem_cons_of_mem x hz))

/-- The synthesis calls of the remaining-chunk loop are dispatched in weakly
increasing chunk order (strictly increasing between distinct chunks). -/
theorem runFrom_calls_chain (synth : Nat → Nat → SynthResult) (expFail : Nat → Bool) :
    ∀ (rest : List (List Char)) (i d : Nat),
      (callIdxs (runFrom synth expFail rest i d).events).Chain' (· ≤ ·) := by
  intro rest
  induction rest with
  | nil => intro i d; simp [runFrom, callIdxs]
  | cons c rest ih =>
    intro i d
    rcases hres : (attemptLoop synth i 15 0 d).result with msg | po
    · rw [runFrom_cons_error synth expFail c rest i d msg hres]
      exact chain'_le_of_all_eq i _ (attemptLoop_calls synth i 15 0 d)
    · have hch : ∀ X : List Ev, callIdxs X = [] →
        (callIdxs ((attemptLoop synth i 15 0 d).events ++ X ++
          ((if rest = [] then [] else [Ev.pace (attemptLoop synth i 15 0 d).delayIC]) ++
            (runFrom synth expFail rest (i + 1)
              (attemptLoop synth i 15 0 d).delayIC).events))).Chain' (· ≤ ·) := by
        intro X hX
        rw [callIdxs_append, callIdxs_append, hX, callIdxs_append, callIdxs_ite_pace]
        simp only [List.append_nil, List.nil_append]
        rw [List.chain'_append]
        refine ⟨chain'_le_of_all_eq i _ (attemptLoop_calls synth i 15 0 d),
          ih (i + 1) _, ?_⟩
        intro x hx y hy
        have hxi := attemptLoop_calls synth i 15 0 d x (List.mem_of_mem_getLast? hx)
        have hyi := runFrom_calls_ge synth expFail rest (i + 1) _ y
          (List.mem_of_mem_head? hy)
        omega
      cases po with
      | none =>
        rw [runFrom_cons_ok synth expFail c rest i d none hres]
        exact hch [] rfl
      | some pcm =>
        rw [runFrom_cons_ok synth expFail c rest i d (some pcm) hres]
        exact hch [Ev.exportTried i (expFail i)] rfl

/-- C8.  Resume correctness and dispatch order: a run started at
`startIndex = k > 0` never invokes synthesis for a chunk index below `k`, its
synthesis calls are dispatched one at a time in weakly increasing chunk-index
order (so distinct chunks appear in strictly increasing order), and when any
chunk remains the first dispatched chunk is exactly `k`. -/
theorem resumeDispatchOrder (synth : Nat → Nat → SynthResult) (expFail : Nat → Bool)
    (chunks : List (List Char)) (k : Nat) (_hk : 0 < k) :
    (∀ j ∈ callIdxs (runGen synth expFail chunks k).events, k ≤ j) ∧
    (callIdxs (runGen synth expFail chunks k).events).Chain' (· ≤ ·) ∧
    (k < chunks.length →
      (callIdxs (runGen synth expFail chunks k).events).head? = some k) := by
  refine ⟨runFrom_calls_ge synth expFail (chunks.drop k) k 2000,
    runFrom_calls_chain synth expFail (chunks.drop k) k 2000, ?_⟩
  intro hlt
  have hdrop : chunks.drop k = chunks[k] :: chunks.drop (k + 1) :=
    List.drop_eq_getElem_cons hlt
  unfold runGen
  rw [hdrop]
  obtain ⟨rl, tl, hal⟩ := attemptLoop_head synth k 15 0 2000 (by omega)
  rcases hres : (attemptLoop synth k 15 0 2000).result with msg | po
  · rw [runFrom_cons_error synth expFail _ _ k 2000 msg hres]
    rw [show (⟨(attemptLoop synth k 15 0 2000).events, [], [], some msg⟩ :
      RunResult).events = (attemptLoop synth k 15 0 2000).events from rfl, hal]
    rfl
  · rw [runFrom_cons_ok synth expFail _ _ k 2000 po hres]
    cases po <;>
      simp [hal, callIdxs_append, callIdxs, callIdx, List.filterMap_cons]

/-- Witness for C8: resuming at index 1 over two chunks. -/
theorem resumeDispatchOrder_witness :
    0 < 1 ∧
    ((∀ j ∈ callIdxs (runGen stubSynth noExpFail [['a'], ['b']] 1).events, 1 ≤ j) ∧
     (callIdxs (runGen stubSynth noExpFail [['a'], ['b']] 1).events).Chain' (· ≤ ·) ∧
     (1 < ([['a'], ['b']] : List (List Char)).length →
       (callIdxs (runGen stubSynth noExpFail [['a'], ['b']] 1).events).head? = some 1)) :=
  ⟨by decide, resumeDispatchOrder stubSynth noExpFail [['a'], ['b']] 1 (by decide)⟩

/-- Pairwise trace condition for the backoff formulas: whenever a failed
synthesis attempt is immediately followed by a retry wait, the wait is
`2000 * 1.5 ^ n` ms for a non-rate-limit failure and `10000 + n * 5000` ms
for a rate-limit failure, where `n` is the post-increment attempt count
(the 0-based attempt number plus one). -/
def pairCond (e1 e2 : Ev) : Prop :=
  ∀ (i a : Nat) (rl : Bool) (w : ℚ),
    e1 = Ev.call i a (some rl) → e2 = Ev.retryWait w →
    w = if rl = true then ((10000 + (a + 1) * 5000 : Nat) : ℚ)
        else (2000 : ℚ) * (3 / 2) ^ (a + 1)

/-- `pairCond` holds vacuously when the second event is not a retry wait. -/
theorem pairCond_of_not_retry (e1 e2 : Ev) (h : ∀ w, e2 ≠ Ev.retryWait w) :
    pairCond e1 e2 := by
  intro i a rl w _ he2
  exact absurd he2 (h w)

/-- `pairCond` holds vacuously when the first event is not a failed call. -/
theorem pairCond_of_not_call (e1 e2 : Ev) (h : ∀ i a rl, e1 ≠ Ev.call i a (some rl)) :
    pairCond e1 e2 := by
  intro i a rl w he1 _
  exact absurd he1 (h i a rl)

/-- Chains with `pairCond` compose when the right part does not start with a
retry wait. -/
theorem chain'_pairCond_append (A B : List Ev) (hA : A.Chain' pairCond)
    (hB : B.Chain' pairCond) (hhd : ∀ w, B.head? ≠ some (Ev.retryWait w)) :
    (A ++ B).Chain' pairCond := by
  rw [List.chain'_append]
  refine ⟨hA, hB, ?_⟩
  intro x hx y hy
  intro i a rl w _ he2
  rw [he2] at hy
  exact absurd hy (hhd w)

/-- The events of the retry loop satisfy the backoff pair condition: each
wait that follows the n-th failed attempt uses the formula for n. -/
theorem attemptLoop_chain (synth : Nat → Nat → SynthResult) (i : Nat) :
    ∀ (fuel a d : Nat), ((attemptLoop synth i fuel a d).events).Chain' pairCond := by
  intro fuel
  induction fuel with
  | zero => intro a d; simp [attemptLoop]
  | succ fuel ih =>
    intro a d
    rcases hs : synth i a with pcm | ⟨isRL, msg⟩
    · simp [attemptLoop, hs]
    · simp only [attemptLoop, hs]
      split
      · simp
      · split
        · simp
        · rw [List.chain'_cons]
          constructor
          · intro i' a' rl' w' he1 he2
            rw [Ev.call.injEq] at he1
            rw [Ev.retryWait.injEq] at he2
            obtain ⟨hi, ha, hf⟩ := he1
            rw [Option.some.injEq] at hf
            subst hi; subst ha; subst hf; subst he2
            rfl
          · rw [List.chain'_cons']
            refine ⟨?_, ih _ _⟩
            intro y _
            exact pairCond_of_not_call _ y (fun _ _ _ h => by cases h)

/-- The event list of the remaining-chunk loop never starts with a retry
wait (it is empty or starts with a synthesis call). -/
theorem runFrom_head_not_retry (synth : Nat → Nat → SynthResult)
    (expFail : Nat → Bool) (rest : List (List Char)) (i d : Nat) :
    ∀ w, (runFrom synth expFail rest i d).events.head? ≠ some (Ev.retryWait w) := by
  intro w
  cases rest with
  | nil => simp [runFrom]
  | cons c rest =>
    obtain ⟨rl, tl, hal⟩ := attemptLoop_head synth i 15 0 d (by omega)
    rcases hres : (attemptLoop synth i 15 0 d).result with msg | po
    · rw [runFrom_cons_error synth expFail c rest i d msg hres]
      simp [hal]
    · cases po with
      | none =>
        rw [runFrom_cons_ok synth expFail c rest i d none hres]
        simp [hal]
      | some pcm =>
        rw [runFrom_cons_ok synth expFail c rest i d (some pcm) hres]
        simp [hal]

/-- Heads of appended event lists avoid retry waits when both parts do. -/
theorem head_not_retry_append (A B : List Ev)
    (hA : ∀ w, A.head? ≠ some (Ev.retryWait w))
    (hB : ∀ w, B.head? ≠ some (Ev.retryWait w)) :
    ∀ w, (A ++ B).head? ≠ some (Ev.retryWait w) := by
  intro w
  cases A with
  | nil => simpa using hB w
  | cons e A => simpa using hA w

/-- The whole event trace of the remaining-chunk loop satisfies the backoff
pair condition. -/
theorem runFrom_chain (synth : Nat → Nat → SynthResult) (expFail : Nat → Bool) :
    ∀ (rest : List (List Char)) (i d : Nat),
      ((runFrom synth expFail rest i d).events).Chain' pairCond := by
  intro rest
  induction rest with
  | nil => intro i d; simp [runFrom]
  | cons c rest ih =>
    intro i d
    rcases hres : (attemptLoop synth i 15 0 d).result with msg | po
    · rw [runFrom_cons_error synth expFail c rest i d msg hres]
      exact attemptLoop_chain synth i 15 0 d
    · have hassem : ∀ X : List Ev, X.Chain' pairCond →
        (∀ w, X.head? ≠ some (Ev.retryWait w)) →
        (((attemptLoop synth i 15 0 d).events ++ X ++
          ((if rest = [] then [] else [Ev.pace (attemptLoop synth i 15 0 d).delayIC]) ++
            (runFrom synth expFail rest (i + 1)
              (attemptLoop synth i 15 0 d).delayIC).events))).Chain' pairCond := by
        intro X hX hXhd
        have hpace : ∀ w, (if rest = [] then ([] : List Ev)
            else [Ev.pace (attemptLoop synth i 15 0 d).delayIC]).head?
            ≠ some (Ev.retryWait w) := by
          intro w; split <;> simp
        have hpchain : (if rest = [] then ([] : List Ev)
            else [Ev.pace (attemptLoop synth i 15 0 d).delayIC]).Chain' pairCond := by
          split <;> simp
        rw [List.append_assoc]
        refine chain'_pairCond_append _ _ (attemptLoop_chain synth i 15 0 d) ?_ ?_
        · refine chain'_pairCond_append _ _ hX ?_ ?_
          · exact chain'_pairCond_append _ _ hpchain (ih (i + 1) _)
              (runFrom_head_not_retry synth expFail rest (i + 1) _)
          · exact head_not_retry_append _ _ hpace
              (runFrom_head_not_retry synth expFail rest (i + 1) _)
        · exact head_not_retry_append _ _ hXhd
            (head_not_retry_append _ _ hpace
              (runFrom_head_not_retry synth expFail rest (i + 1) _))
      cases po with
      | none =>
        rw [runFrom_cons_ok synth expFail c rest i d none hres]
        exact hassem [] (by simp) (by simp)
      | some pcm =>
        rw [runFrom_cons_ok synth expFail c rest i d (some pcm) hres]
        exact hassem [Ev.exportTried i (expFail i)] (by simp) (by simp)

/-- C4.  Backoff formulas: in a run's trace, whenever the synthesis attempt
numbered `a` (0-based) for chunk `i` fails and is followed by a retry wait
(the n-th failed attempt, n = a + 1, not terminating the run), that wait is
`2000 × 1.5 ^ n` ms for a non-rate-limit failure and `10000 + n × 5000` ms
for a rate-limit failure. -/
theorem backoffFormulas (synth : Nat → Nat → SynthResult) (expFail : Nat → Bool)
    (chunks : List (List Char)) (k : Nat) (l1 l2 : List Ev) (i a : Nat)
    (rl : Bool) (w : ℚ)
    (hsplit : (runGen synth expFail chunks k).events
      = l1 ++ Ev.call i a (some rl) :: Ev.retryWait w :: l2) :
    w = if rl = true then ((10000 + (a + 1) * 5000 : Nat) : ℚ)
        else (2000 : ℚ) * (3 / 2) ^ (a + 1) := by
  have hch : (l1 ++ Ev.call i a (some rl) :: Ev.retryWait w :: l2).Chain' pairCond := by
    rw [← hsplit]
    exact runFrom_chain synth expFail (chunks.drop k) k 2000
  have h2 := (List.chain'_append.mp hch).2.1
  rw [List.chain'_cons] at h2
  exact h2.1 i a rl w rfl rfl

/-- A synthesis oracle whose first attempt hits a rate limit and whose
retries succeed with an empty payload. -/
def rlOnceSynth : Nat → Nat → SynthResult :=
  fun _ a => if a = 0 then SynthResult.failure true "rate" else SynthResult.success []

/-- Witness for C4 on a concrete run with one rate-limited failure. -/
theorem backoffFormulas_witness :
    (runGen rlOnceSynth noExpFail [['a']] 0).events
      = [] ++ Ev.call 0 0 (some true) :: Ev.retryWait 15000 ::
          [Ev.call 0 1 none, Ev.exportTried 0 false] ∧
    (15000 : ℚ) = (if (true : Bool) = true then ((10000 + (0 + 1) * 5000 : Nat) : ℚ)
        else (2000 : ℚ) * (3 / 2) ^ (0 + 1)) :=
  ⟨by decide, backoffFormulas rlOnceSynth noExpFail [['a']] 0 []
    [Ev.call 0 1 none, Ev.exportTried 0 false] 0 0 true 15000 (by decide)⟩

/-- The retry loop records no pacing event, and it returns `interChunkDelay`
ratcheted to 6000 exactly when one of its failures was a rate limit. -/
theorem attemptLoop_delay (synth : Nat → Nat → SynthResult) (i : Nat) :
    ∀ (fuel a d : Nat),
      paceDelays (attemptLoop synth i fuel a d).events = [] ∧
      (attemptLoop synth i fuel a d).delayIC =
        (if hasRL (attemptLoop synth i fuel a d).events then 6000 else d) := by
  intro fuel
  induction fuel with
  | zero => intro a d; simp [attemptLoop, paceDelays, hasRL]
  | succ fuel ih =>
    intro a d
    rcases hs : synth i a with pcm | ⟨isRL, msg⟩
    · simp [attemptLoop, hs, paceDelays, paceOf, hasRL, isRLCall]
    · simp only [attemptLoop, hs]
      split
      · cases isRL <;>
          simp_all [paceDelays, paceOf, hasRL, isRLCall]
      · split
        · cases isRL <;>
            simp_all [paceDelays, paceOf, hasRL, isRLCall]
        · obtain ⟨ih1, ih2⟩ := ih (a + 1) (if isRL = true then 6000 else d)
          cases isRL <;>
            simp_all [paceDelays, paceOf, hasRL, isRLCall]

/-- The optional export event carries no pacing delay and no rate limit. -/
theorem paceDelays_export (po : Option (List Nat)) (i : Nat) (b : Bool) :
    paceDelays (match po with | some _ => [Ev.exportTried i b] | none => []) = [] := by
  cases po <;> rfl

/-- The optional export event is not a rate-limited call. -/
theorem hasRL_export (po : Option (List Nat)) (i : Nat) (b : Bool) :
    hasRL (match po with | some _ => [Ev.exportTried i b] | none => []) = false := by
  cases po <;> rfl

/-- The optional pacing event is not a rate-limited call. -/
theorem hasRL_ite_pace (P : Prop) [Decidable P] (d : Nat) :
    hasRL (if P then ([] : List Ev) else [Ev.pace d]) = false := by
  split <;> rfl

/-- The pacing delays of the optional pacing event. -/
theorem paceDelays_ite_pace (P : Prop) [Decidable P] (d : Nat) :
    paceDelays (if P then ([] : List Ev) else [Ev.pace d]) =
      (if P then [] else [d]) := by
  split <;> rfl

/-- Pacing invariant of the remaining-chunk loop, for an incoming
`interChunkDelay` of 2000 or 6000 (the only values it ever takes): every
recorded pacing delay is at least the incoming delay and is itself 2000 or
6000, the pacing delays are weakly increasing along the trace, and every
pacing delay that comes after a rate-limited failure is at least 6000. -/
theorem runFrom_pace_inv (synth : Nat → Nat → SynthResult) (expFail : Nat → Bool) :
    ∀ (rest : List (List Char)) (i d : Nat), d = 2000 ∨ d = 6000 →
      (∀ p ∈ paceDelays (runFrom synth expFail rest i d).events,
        d ≤ p ∧ (p = 2000 ∨ p = 6000)) ∧
      (paceDelays (runFrom synth expFail rest i d).events).Chain' (· ≤ ·) ∧
      (∀ l1 l2, (runFrom synth expFail rest i d).events = l1 ++ l2 →
        hasRL l1 = true → ∀ p ∈ paceDelays l2, 6000 ≤ p) := by
  intro rest
  induction rest with
  | nil =>
    intro i d _hd
    refine ⟨?_, ?_, ?_⟩
    · intro p hp; simp [runFrom, paceDelays] at hp
    · simp [runFrom, paceDelays]
    · intro l1 l2 hsplit _hrl p hp
      have hsplit' : ([] : List Ev) = l1 ++ l2 := hsplit
      have hl2 : l2 = [] := (List.append_eq_nil.mp hsplit'.symm).2
      rw [hl2] at hp
      simp [paceDelays] at hp
  | cons c rest ih =>
    intro i d hd
    obtain ⟨hAL1, hAL2⟩ := attemptLoop_delay synth i 15 0 d
    have hd' : (attemptLoop synth i 15 0 d).delayIC = 2000 ∨
        (attemptLoop synth i 15 0 d).delayIC = 6000 := by
      rw [hAL2]
      cases hasRL (attemptLoop synth i 15 0 d).events
      · simpa using hd
      · simp
    have hdd' : d ≤ (attemptLoop synth i 15 0 d).delayIC := by
      rw [hAL2]
      cases hasRL (attemptLoop synth i 15 0 d).events
      · simp
      · simp; omega
    have hRLd' : hasRL (attemptLoop synth i 15 0 d).events = true →
        (attemptLoop synth i 15 0 d).delayIC = 6000 := by
      intro h; rw [hAL2, h]; rfl
    rcases hres : (attemptLoop synth i 15 0 d).result with msg | po
    · rw [runFrom_cons_error synth expFail c rest i d msg hres]
      refine ⟨?_, ?_, ?_⟩
      · intro p hp
        have hp' : p ∈ paceDelays (attemptLoop synth i 15 0 d).events := hp
        rw [hAL1] at hp'
        simp at hp'
      · show (paceDelays (attemptLoop synth i 15 0 d).events).Chain' (· ≤ ·)
        rw [hAL1]
        exact List.chain'_nil
      · intro l1 l2 hsplit _hrl p hp
        have hsplit' : (attemptLoop synth i 15 0 d).events = l1 ++ l2 := hsplit
        have hmem : p ∈ paceDelays (attemptLoop synth i 15 0 d).events :=
          (mem_paceDelays _ _).mpr
            (hsplit' ▸ List.mem_append_right l1 ((mem_paceDelays p l2).mp hp))
        rw [hAL1] at hmem
        simp at hmem
    · have hmain : ∀ X : List Ev, paceDelays X = [] → hasRL X = false →
        ((∀ p ∈ paceDelays ((attemptLoop synth i 15 0 d).events ++ X ++
            ((if rest = [] then []
                else [Ev.pace (attemptLoop synth i 15 0 d).delayIC]) ++
              (runFrom synth expFail rest (i + 1)
                (attemptLoop synth i 15 0 d).delayIC).events)),
          d ≤ p ∧ (p = 2000 ∨ p = 6000)) ∧
        (paceDelays ((attemptLoop synth i 15 0 d).events ++ X ++
            ((if rest = [] then []
                else [Ev.pace (attemptLoop synth i 15 0 d).delayIC]) ++
              (runFrom synth expFail rest (i + 1)
                (attemptLoop synth i 15 0 d).delayIC).events))).Chain' (· ≤ ·) ∧
        (∀ l1 l2, ((attemptLoop synth i 15 0 d).events ++ X ++
            ((if rest = [] then []
                else [Ev.pace (attemptLoop synth i 15 0 d).delayIC]) ++
              (runFrom synth expFail rest (i + 1)
                (attemptLoop synth i 15 0 d).delayIC).events)) = l1 ++ l2 →
          hasRL l1 = true → ∀ p ∈ paceDelays l2, 6000 ≤ p)) := by
        intro X hX hXRL
        obtain ⟨ihA, ihB, ihC⟩ := ih (i + 1) (attemptLoop synth i 15 0 d).delayIC hd'
        have hflat : paceDelays ((attemptLoop synth i 15 0 d).events ++ X ++
            ((if rest = [] then []
                else [Ev.pace (attemptLoop synth i 15 0 d).delayIC]) ++
              (runFrom synth expFail rest (i + 1)
                (attemptLoop synth i 15 0 d).delayIC).events)) =
            (if rest = [] then []
              else [(attemptLoop synth i 15 0 d).delayIC]) ++
            paceDelays (runFrom synth expFail rest (i + 1)
              (attemptLoop synth i 15 0 d).delayIC).events := by
          rw [paceDelays_append, paceDelays_append, paceDelays_append, hAL1, hX,
            paceDelays_ite_pace]
          simp
        refine ⟨?_, ?_, ?_⟩
        · intro p hp
          rw [hflat] at hp
          rcases List.mem_append.mp hp with hp | hp
          · have hpd : p = (attemptLoop synth i 15 0 d).delayIC := by
              by_cases hp' : rest = []
              all_goals revert hp
              all_goals simp [hp']
            exact hpd ▸ ⟨hdd', hd'⟩
          · obtain ⟨h1, h2⟩ := ihA p hp
            exact ⟨le_trans hdd' h1, h2⟩
        · rw [hflat]
          by_cases hr : rest = []
          · simpa [hr] using ihB
          · rw [if_neg hr]
            rw [List.singleton_append, List.chain'_cons']
            refine ⟨?_, ihB⟩
            intro y hy
            exact (ihA y (List.mem_of_mem_head? hy)).1
        · intro l1 l2 hsplit hrl p hp
          have hsplit2 : l1 ++ l2 =
              ((attemptLoop synth i 15 0 d).events ++ X ++
                (if rest = [] then []
                  else [Ev.pace (attemptLoop synth i 15 0 d).delayIC])) ++
              (runFrom synth expFail rest (i + 1)
                (attemptLoop synth i 15 0 d).delayIC).events := by
            rw [← hsplit]
            simp [List.append_assoc]
          have hFRL : hasRL ((attemptLoop synth i 15 0 d).events ++ X ++
              (if rest = [] then []
                else [Ev.pace (attemptLoop synth i 15 0 d).delayIC])) =
              hasRL (attemptLoop synth i 15 0 d).events := by
            rw [hasRL_append, hasRL_append, hXRL, hasRL_ite_pace]
            simp
          have hFpace : ∀ q, q ∈ paceDelays ((attemptLoop synth i 15 0 d).events ++ X ++
              (if rest = [] then []
                else [Ev.pace (attemptLoop synth i 15 0 d).delayIC])) →
              q = (attemptLoop synth i 15 0 d).delayIC := by
            intro q hq
            rw [paceDelays_append, paceDelays_append, hAL1, hX,
              paceDelays_ite_pace] at hq
            by_cases hr : rest = []
            all_goals revert hq
            all_goals simp [hr]
          rcases List.append_eq_append_iff.mp hsplit2 with ⟨m, hFm, hl2⟩ | ⟨m, hl1, hRm⟩
          · have hRLE : hasRL (attemptLoop synth i 15 0 d).events = true := by
              rw [← hFRL, hFm, hasRL_append, hrl]
              rfl
            have hD6 := hRLd' hRLE
            rw [hl2, paceDelays_append] at hp
            rcases List.mem_append.mp hp with hp | hp
            · have hqF : p ∈ paceDelays ((attemptLoop synth i 15 0 d).events ++ X ++
                  (if rest = [] then []
                    else [Ev.pace (attemptLoop synth i 15 0 d).delayIC])) := by
                refine (mem_paceDelays _ _).mpr ?_
                rw [hFm]
                exact List.mem_append_right l1 ((mem_paceDelays p m).mp hp)
              rw [hFpace p hqF, hD6]
            · rw [← hD6]
              exact (ihA p hp).1
          · have hor : hasRL ((attemptLoop synth i 15 0 d).events ++ X ++
                (if rest = [] then []
                  else [Ev.pace (attemptLoop synth i 15 0 d).delayIC])) = true ∨
                hasRL m = true := by
              rw [hl1, hasRL_append] at hrl
              exact Bool.or_eq_true_iff.mp hrl
            rcases hor with hF | hm
            · have hD6 := hRLd' (by rw [← hFRL]; exact hF)
              have hpR : p ∈ paceDelays (runFrom synth expFail rest (i + 1)
                  (attemptLoop synth i 15 0 d).delayIC).events := by
                refine (mem_paceDelays _ _).mpr ?_
                rw [hRm]
                exact List.mem_append_right m ((mem_paceDelays p l2).mp hp)
              rw [← hD6]
              exact (ihA p hpR).1
            · exact ihC m l2 hRm hm p hp
      cases po with
      | none =>
        rw [runFrom_cons_ok synth expFail c rest i d none hres]
        exact hmain [] rfl rfl
      | some pcm =>
        rw [runFrom_cons_ok synth expFail c rest i d (some pcm) hres]
        exact hmain [Ev.exportTried i (expFail i)] rfl rfl

/-- C3.  Ratchet monotonicity: in a run the inter-chunk pacing delay starts
at 2000 ms (every recorded pacing delay is ≥ 2000) and the pacing delays are
monotonically non-decreasing along the trace; moreover, once any synthesis
attempt fails with a rate-limit failure, every pacing delay recorded after
that point is ≥ 6000 ms (and by monotonicity never decreases for the
remainder of the run). -/
theorem ratchetMonotonic (synth : Nat → Nat → SynthResult) (expFail : Nat → Bool)
    (chunks : List (List Char)) (k : Nat) :
    (∀ p ∈ paceDelays (runGen synth expFail chunks k).events, 2000 ≤ p) ∧
    (paceDelays (runGen synth expFail chunks k).events).Chain' (· ≤ ·) ∧
    (∀ l1 l2, (runGen synth expFail chunks k).events = l1 ++ l2 →
      hasRL l1 = true → ∀ p ∈ paceDelays l2, 6000 ≤ p) := by
  obtain ⟨hA, hB, hC⟩ :=
    runFrom_pace_inv synth expFail (chunks.drop k) k 2000 (Or.inl rfl)
  exact ⟨fun p hp => (hA p hp).1, hB, hC⟩

/-- Witness for C3 on a concrete run whose first attempt is rate limited:
the pacing delay recorded after that failure is 6000. -/
theorem ratchetMonotonic_witness :
    (runGen rlOnceSynth noExpFail [['a'], ['b']] 0).events
      = [Ev.call 0 0 (some true)] ++
        [Ev.retryWait 15000, Ev.call 0 1 none, Ev.exportTried 0 false, Ev.pace 6000,
         Ev.call 1 0 (some true), Ev.retryWait 15000, Ev.call 1 1 none,
         Ev.exportTried 1 false] ∧
    hasRL [Ev.call 0 0 (some true)] = true ∧
    (∀ p ∈ paceDelays
        [Ev.retryWait 15000, Ev.call 0 1 none, Ev.exportTried 0 false, Ev.pace 6000,
         Ev.call 1 0 (some true), Ev.retryWait 15000, Ev.call 1 1 none,
         Ev.exportTried 1 false], 6000 ≤ p) :=
  ⟨by decide, by decide,
    (ratchetMonotonic rlOnceSynth noExpFail [['a'], ['b']] 0).2.2
      [Ev.call 0 0 (some true)]
      [Ev.retryWait 15000, Ev.call 0 1 none, Ev.exportTried 0 false, Ev.pace 6000,
       Ev.call 1 0 (some true), Ev.retryWait 15000, Ev.call 1 1 none,
       Ev.exportTried 1 false] (by decide) (by decide)⟩

/-- The first character, if any, is not whitespace. -/
def headNotWs (s : List Char) : Prop :=
  ∀ c, s.head? = some c → isWs c = false

/-- The last character, if any, is not whitespace. -/
def lastNotWs (s : List Char) : Prop :=
  ∀ c, s.getLast? = some c → isWs c = false

/-- Adjacent characters are not both whitespace. -/
def noWWpair (c d : Char) : Prop :=
  ¬(isWs c = true ∧ isWs d = true)

/-- A sentence terminator is not followed by whitespace. -/
def noTWpair (c d : Char) : Prop :=
  ¬(isTerm c = true ∧ isWs d = true)

/-- Every whitespace character of the list is a plain space. -/
def spacesOnly (s : List Char) : Prop :=
  ∀ c ∈ s, isWs c = true → c = ' '

/-- Shape of a piece produced by sentence splitting on normalised text:
non-empty, trimmed at both ends, single plain spaces only, and no internal
split point. -/
def PieceOK (s : List Char) : Prop :=
  s ≠ [] ∧ headNotWs s ∧ lastNotWs s ∧ spacesOnly s ∧
  s.Chain' noWWpair ∧ s.Chain' noTWpair

/-- The piece ends with a sentence terminator. -/
def endsTerm (s : List Char) : Prop :=
  ∃ t, s.getLast? = some t ∧ isTerm t = true

/-- The sentence list is well-shaped: every piece is a `PieceOK` and every
piece except the last ends with a sentence terminator. -/
def GoodSents (S : List (List Char)) : Prop :=
  (∀ s ∈ S, PieceOK s) ∧ (∀ s ∈ S.dropLast, endsTerm s)

/-- Sentence terminators are not whitespace. -/
theorem term_not_ws (c : Char) (h : isTerm c = true) : isWs c = false := by
  simp [isTerm] at h
  rcases h with (h | h) | h <;> subst h <;> rfl

/-- Every list is the whitespace it drops followed by its `dropWhile`. -/
theorem exists_append_dropWhile (p : Char → Bool) :
    ∀ l : List Char, ∃ a, l = a ++ l.dropWhile p := by
  intro l
  induction l with
  | nil => exact ⟨[], rfl⟩
  | cons c rest ih =>
    by_cases hc : p c = true
    · obtain ⟨a, ha⟩ := ih
      exact ⟨c :: a, by simp [List.dropWhile_cons, hc]; exact ha⟩
    · exact ⟨[], by simp [List.dropWhile_cons, hc]⟩

/-- The head surviving a whitespace `dropWhile` is not whitespace. -/
theorem headNotWs_dropWhile : ∀ l : List Char, headNotWs (l.dropWhile isWs) := by
  intro l
  induction l with
  | nil => intro c h; simp at h
  | cons d rest ih =>
    by_cases hd : isWs d = true
    · simpa [List.dropWhile_cons, hd] using ih
    · intro c h
      simp [List.dropWhile_cons, hd] at h
      rw [← h]
      simpa using hd

/-- A chain survives removing a prefix. -/
theorem chain'_of_append_left {R : Char → Char → Prop} {a b : List Char}
    (h : (a ++ b).Chain' R) : b.Chain' R :=
  (List.chain'_append.mp h).2.1

/-- `noWWpair` chains reverse. -/
theorem chain'_noWW_reverse (l : List Char) (h : l.Chain' noWWpair) :
    l.reverse.Chain' noWWpair := by
  rw [List.chain'_reverse]
  exact h.imp (fun a b hab hba => hab ⟨hba.2, hba.1⟩)

/-- The head of an append with a non-empty left part. -/
theorem head?_append_left {a : List Char} (b : List Char) (h : a ≠ []) :
    (a ++ b).head? = a.head? := by
  cases a with
  | nil => exact absurd rfl h
  | cons x a => rfl

/-- `collapseAux` output has only plain spaces as whitespace. -/
theorem collapse_spaces : ∀ (b : Bool) (l : List Char), spacesOnly (collapseAux b l) := by
  intro b l
  induction l generalizing b with
  | nil => intro c hc; simp [collapseAux] at hc
  | cons d rest ih =>
    by_cases hd : isWs d = true
    · cases b with
      | true =>
        simpa [collapseAux, hd] using ih true
      | false =>
        intro c hc hws
        simp [collapseAux, hd] at hc
        rcases hc with hc | hc
        · exact hc
        · exact ih true c hc hws
    · intro c hc hws
      simp [collapseAux, hd] at hc
      rcases hc with hc | hc
      · subst hc; exact absurd hws hd
      · exact ih false c hc hws

/-- In run-skipping mode `collapseAux` starts with a non-whitespace
character. -/
theorem collapse_true_head : ∀ l : List Char, headNotWs (collapseAux true l) := by
  intro l
  induction l with
  | nil => intro c h; simp [collapseAux] at h
  | cons d rest ih =>
    by_cases hd : isWs d = true
    · simpa [collapseAux, hd] using ih
    · intro c h
      simp [collapseAux, hd] at h
      rw [← h]
      simpa using hd

/-- `collapseAux` output never has two adjacent whitespace characters. -/
theorem collapse_noWW : ∀ (b : Bool) (l : List Char),
    (collapseAux b l).Chain' noWWpair := by
  intro b l
  induction l generalizing b with
  | nil => simp [collapseAux]
  | cons d rest ih =>
    by_cases hd : isWs d = true
    · cases b with
      | true => simpa [collapseAux, hd] using ih true
      | false =>
        have hstep : collapseAux false (d :: rest) = ' ' :: collapseAux true rest := by
          simp [collapseAux, hd]
        rw [hstep, List.chain'_cons']
        refine ⟨?_, ih true⟩
        intro y hy hcon
        have hyw := hcon.2
        rw [collapse_true_head rest y hy] at hyw
        simp at hyw
    · have hstep : collapseAux b (d :: rest) = d :: collapseAux false rest := by
        cases b <;> simp [collapseAux, hd]
      rw [hstep, List.chain'_cons']
      refine ⟨?_, ih false⟩
      intro y _ hcon
      exact hd hcon.1

/-- Members of the trim are members of the original list. -/
theorem mem_of_mem_trimChars (l : List Char) (c : Char) (hc : c ∈ trimChars l) :
    c ∈ l := by
  obtain ⟨a1, ha1⟩ := exists_append_dropWhile isWs l
  obtain ⟨a2, ha2⟩ := exists_append_dropWhile isWs (l.dropWhile isWs).reverse
  unfold trimChars at hc
  rw [List.mem_reverse] at hc
  have h1 : c ∈ (l.dropWhile isWs).reverse := ha2 ▸ List.mem_append_right a2 hc
  rw [List.mem_reverse] at h1
  exact ha1 ▸ List.mem_append_right a1 h1

/-- Trimming preserves the plain-space property. -/
theorem trim_spaces (l : List Char) (h : spacesOnly l) : spacesOnly (trimChars l) :=
  fun c hc hws => h c (mem_of_mem_trimChars l c hc) hws

/-- Trimming preserves the no-double-whitespace chain. -/
theorem trim_noWW (l : List Char) (h : l.Chain' noWWpair) :
    (trimChars l).Chain' noWWpair := by
  obtain ⟨a1, ha1⟩ := exists_append_dropWhile isWs l
  obtain ⟨a2, ha2⟩ := exists_append_dropWhile isWs (l.dropWhile isWs).reverse
  have h1 : (l.dropWhile isWs).Chain' noWWpair := chain'_of_append_left (ha1 ▸ h)
  have h2 : ((l.dropWhile isWs).reverse).Chain' noWWpair := chain'_noWW_reverse _ h1
  have h3 : (((l.dropWhile isWs).reverse).dropWhile isWs).Chain' noWWpair :=
    chain'_of_append_left (ha2 ▸ h2)
  exact chain'_noWW_reverse _ h3

/-- The trim starts with a non-whitespace character. -/
theorem trim_headNotWs (l : List Char) : headNotWs (trimChars l) := by
  intro c hc
  obtain ⟨a2, ha2⟩ := exists_append_dropWhile isWs (l.dropWhile isWs).reverse
  have hY : l.dropWhile isWs =
      (((l.dropWhile isWs).reverse.dropWhile isWs)).reverse ++ a2.reverse := by
    have := congrArg List.reverse ha2
    rwa [List.reverse_reverse, List.reverse_append] at this
  have hne : (((l.dropWhile isWs).reverse.dropWhile isWs)).reverse ≠ [] := by
    intro hnil
    rw [show trimChars l = (((l.dropWhile isWs).reverse.dropWhile isWs)).reverse
      from rfl, hnil] at hc
    simp at hc
  refine headNotWs_dropWhile l c ?_
  rw [hY, head?_append_left _ hne]
  exact hc

/-- The trim ends with a non-whitespace character. -/
theorem trim_lastNotWs (l : List Char) : lastNotWs (trimChars l) := by
  intro c hc
  have hl : (trimChars l).getLast? =
      ((l.dropWhile isWs).reverse.dropWhile isWs).head? := by
    rw [show trimChars l = (((l.dropWhile isWs).reverse.dropWhile isWs)).reverse
      from rfl]
    exact List.getLast?_reverse _
  rw [hl] at hc
  exact headNotWs_dropWhile _ c hc

/-- Normalised text uses only plain spaces as whitespace. -/
theorem cleaned_spaces (l : List Char) : spacesOnly (cleanedText l) :=
  trim_spaces _ (collapse_spaces false l)

/-- Normalised text has no two adjacent whitespace characters. -/
theorem cleaned_noWW (l : List Char) : (cleanedText l).Chain' noWWpair :=
  trim_noWW _ (collapse_noWW false l)

/-- Normalised text starts with a non-whitespace character. -/
theorem cleaned_head (l : List Char) : headNotWs (cleanedText l) :=
  trim_headNotWs _

/-- Normalised text ends with a non-whitespace character. -/
theorem cleaned_last (l : List Char) : lastNotWs (cleanedText l) :=
  trim_lastNotWs _

/-- `lastNotWs` passes to the tail. -/
theorem lastNotWs_tail {c : Char} {rest : List Char} (h : lastNotWs (c :: rest)) :
    lastNotWs rest := by
  intro x hx
  cases rest with
  | nil => simp at hx
  | cons d t =>
    refine h x ?_
    rw [List.getLast?_cons_cons]
    exact hx

/-- A chain passes to the tail. -/
theorem chain'_tail {R : Char → Char → Prop} {c : Char} {rest : List Char}
    (h : (c :: rest).Chain' R) : rest.Chain' R :=
  (List.chain'_cons'.mp h).2

/-- `spacesOnly` passes to the tail. -/
theorem spacesOnly_tail {c : Char} {rest : List Char} (h : spacesOnly (c :: rest)) :
    spacesOnly rest :=
  fun x hx => h x (List.mem_cons_of_mem c hx)

/-- The sentence scanner always produces at least one piece. -/
theorem splitAux_ne_nil : ∀ (l : List Char) (b : Bool) (acc : List Char),
    splitAux b acc l ≠ [] := by
  intro l
  induction l with
  | nil => intro b acc; simp [splitAux]
  | cons c rest ih =>
    intro b acc
    simp only [splitAux]
    split
    · exact ih true acc
    · split
      · simp
      · exact ih false (c :: acc)

/-- Every piece except the last one ends with a sentence terminator. -/
theorem splitAux_dropLast_endsTerm : ∀ (l : List Char) (b : Bool) (acc : List Char),
    ∀ p ∈ (splitAux b acc l).dropLast, endsTerm p := by
  intro l
  induction l with
  | nil => intro b acc p hp; simp [splitAux] at hp
  | cons c rest ih =>
    intro b acc p hp
    simp only [splitAux] at hp
    by_cases hskip : (b && isWs c) = true
    · rw [if_pos hskip] at hp
      exact ih true acc p hp
    · rw [if_neg hskip] at hp
      by_cases hsp : (isTerm c && headIsWs rest) = true
      · rw [if_pos hsp] at hp
        rcases hq : splitAux true [] rest with _ | ⟨q, qs⟩
        · exact absurd hq (splitAux_ne_nil rest true [])
        · rw [hq, List.dropLast_cons₂] at hp
          rcases List.mem_cons.mp hp with hp | hp
          · refine ⟨c, ?_, (Bool.and_eq_true_iff.mp hsp).1⟩
            rw [hp]
            exact List.getLast?_concat _
          · rw [← hq] at hp
            exact ih true [] p hp
      · rw [if_neg hsp] at hp
        exact ih false (c :: acc) p hp

/-- Invariant lemma for the sentence scanner: on normalised input every
produced piece is well-shaped.  The hypotheses carry the state invariants of
the scan: properties of the remaining input `l`, of the accumulated piece
`acc` (reversed), the adjacency facts at the boundary between them, and the
facts tied to the skip flag. -/
theorem splitAux_pieces_ok :
    ∀ (l : List Char) (b : Bool) (acc : List Char),
    spacesOnly l → l.Chain' noWWpair → lastNotWs l →
    spacesOnly acc → acc.reverse.Chain' noWWpair → acc.reverse.Chain' noTWpair →
    headNotWs acc.reverse →
    (∀ x y, acc.head? = some x → l.head? = some y →
      ¬(isWs x = true ∧ isWs y = true) ∧ ¬(isTerm x = true ∧ isWs y = true)) →
    (b = true → acc = [] ∧ l ≠ []) →
    (l = [] → ∀ x, acc.head? = some x → isWs x = false) →
    (b = false → acc = [] → l ≠ [] ∧ headNotWs l) →
    ∀ p ∈ splitAux b acc l, PieceOK p := by
  intro l
  induction l with
  | nil =>
    intro b acc _hSpL _hChL _hLaL hSpA hWWA hTWA hHdA _hBdy hSkip hEnd hTop p hp
    simp [splitAux] at hp
    subst hp
    have hne : acc ≠ [] := by
      cases b with
      | true => exact absurd rfl (fun h => (hSkip h).2 rfl)
      | false =>
        intro hacc
        exact (hTop rfl hacc).1 rfl
    refine ⟨by simpa using hne, hHdA, ?_, ?_, hWWA, hTWA⟩
    · intro x hx
      rw [List.getLast?_reverse] at hx
      exact hEnd rfl x hx
    · intro x hx
      exact hSpA x (List.mem_reverse.mp hx)
  | cons c rest ih =>
    intro b acc hSpL hChL hLaL hSpA hWWA hTWA hHdA hBdy hSkip hEnd hTop p hp
    simp only [splitAux] at hp
    by_cases hskip : (b && isWs c) = true
    · rw [if_pos hskip] at hp
      obtain ⟨hb, hwc⟩ := Bool.and_eq_true_iff.mp hskip
      obtain ⟨hacc, _⟩ := hSkip hb
      subst hacc
      have hrestne : rest ≠ [] := by
        intro hre
        subst hre
        have := hLaL c (by simp)
        rw [hwc] at this
        cases this
      refine ih true [] (spacesOnly_tail hSpL) (chain'_tail hChL) (lastNotWs_tail hLaL)
        (fun x hx => by simp at hx) (by simp) (by simp) (fun x hx => by simp at hx)
        (fun x y hx => by simp at hx) (fun _ => ⟨rfl, hrestne⟩)
        (fun hre => absurd hre hrestne) (fun hb' => by cases hb') p hp
    · rw [if_neg hskip] at hp
      by_cases hsp : (isTerm c && headIsWs rest) = true
      · rw [if_pos hsp] at hp
        obtain ⟨htc, hhw⟩ := Bool.and_eq_true_iff.mp hsp
        have hrestne : rest ≠ [] := by
          cases rest with
          | nil => simp [headIsWs] at hhw
          | cons d t => simp
        rcases List.mem_cons.mp hp with hp | hp
        · subst hp
          refine ⟨by simp, ?_, ?_, ?_, ?_, ?_⟩
          · intro x hx
            cases hacc : acc with
            | nil =>
              subst hacc
              simp at hx
              rw [← hx]
              exact term_not_ws c htc
            | cons a as =>
              rw [head?_append_left _ (by subst hacc; simp)] at hx
              exact hHdA x hx
          · intro x hx
            rw [List.getLast?_concat] at hx
            injection hx with hx
            rw [← hx]
            exact term_not_ws c htc
          · intro x hx hws
            rcases List.mem_append.mp hx with hx | hx
            · exact hSpA x (List.mem_reverse.mp hx) hws
            · rw [List.mem_singleton.mp hx] at hws
              rw [term_not_ws c htc] at hws
              cases hws
          · rw [List.chain'_append]
            refine ⟨hWWA, List.chain'_singleton c, ?_⟩
            intro x _hx y hy hcon
            simp at hy
            subst hy
            rw [term_not_ws c htc] at hcon
            exact absurd hcon.2 (by simp)
          · rw [List.chain'_append]
            refine ⟨hTWA, List.chain'_singleton c, ?_⟩
            intro x _hx y hy hcon
            simp at hy
            subst hy
            rw [term_not_ws c htc] at hcon
            exact absurd hcon.2 (by simp)
        · refine ih true [] (spacesOnly_tail hSpL) (chain'_tail hChL)
            (lastNotWs_tail hLaL) (fun x hx => by simp at hx) (by simp) (by simp)
            (fun x hx => by simp at hx) (fun x y hx => by simp at hx)
            (fun _ => ⟨rfl, hrestne⟩) (fun hre => absurd hre hrestne)
            (fun hb' => by cases hb') p hp
      · rw [if_neg hsp] at hp
        have hcnw : b = true → isWs c = false := by
          intro hb
          cases hic : isWs c
          · rfl
          · rw [hb, hic] at hskip; simp at hskip
        have hcnw2 : acc = [] → isWs c = false := by
          intro hacc
          cases b with
          | true => exact hcnw rfl
          | false =>
            obtain ⟨_, hhd⟩ := hTop rfl hacc
            exact hhd c rfl
        refine ih false (c :: acc) (spacesOnly_tail hSpL) (chain'_tail hChL)
          (lastNotWs_tail hLaL) ?_ ?_ ?_ ?_ ?_ (fun hb' => by cases hb') ?_
          (fun _ hacc => by cases hacc) p hp
        · intro x hx hws
          rcases List.mem_cons.mp hx with hx | hx
          · subst hx; exact hSpL x (by simp) hws
          · exact hSpA x hx hws
        · rw [List.reverse_cons, List.chain'_append]
          refine ⟨hWWA, List.chain'_singleton c, ?_⟩
          intro x hx y hy
          rw [List.getLast?_reverse] at hx
          simp at hy
          subst hy
          exact (hBdy x c hx rfl).1
        · rw [List.reverse_cons, List.chain'_append]
          refine ⟨hTWA, List.chain'_singleton c, ?_⟩
          intro x hx y hy
          rw [List.getLast?_reverse] at hx
          simp at hy
          subst hy
          exact (hBdy x c hx rfl).2
        · rw [List.reverse_cons]
          intro x hx
          cases hacc : acc with
          | nil =>
            subst hacc
            simp at hx
            rw [← hx]
            exact hcnw2 rfl
          | cons a as =>
            rw [head?_append_left _ (by subst hacc; simp)] at hx
            exact hHdA x hx
        · intro x y hx hy
          rw [show (c :: acc).head? = some c from rfl] at hx
          injection hx with hx
          subst hx
          constructor
          · intro hcon
            have := (List.chain'_cons'.mp hChL).1 y ?hy2
            · exact this hcon
            · cases rest with
              | nil => simp at hy
              | cons d t => exact hy
          · intro hcon
            have hhds : headIsWs rest = true := by
              cases rest with
              | nil => simp at hy
              | cons d t =>
                simp [headIsWs]
                injection hy with hy
                rw [hy]
                exact hcon.2
            rw [hcon.1, hhds] at hsp
            simp at hsp
        · intro hre x hx
          rw [show (c :: acc).head? = some c from rfl] at hx
          injection hx with hx
          subst hre
          rw [← hx]
          exact hLaL c (by simp)

/-- A well-shaped piece passes the `trim().length > 0` filter. -/
theorem pieceOK_filter (p : List Char) (h : PieceOK p) :
    (!(trimChars p).isEmpty) = true := by
  obtain ⟨hne, hhd, -, -, -, -⟩ := h
  cases hp : p with
  | nil => exact absurd hp hne
  | cons c rest =>
    subst hp
    have hc : isWs c = false := hhd c rfl
    have hdw : (c :: rest).dropWhile isWs = c :: rest := by
      rw [List.dropWhile_cons, if_neg (by simp [hc])]
    have hne2 : (c :: rest).reverse.dropWhile isWs ≠ [] := by
      intro hnil
      have := List.dropWhile_eq_nil_iff.mp hnil c (by simp)
      rw [hc] at this
      cases this
    show (!(trimChars (c :: rest)).isEmpty) = true
    unfold trimChars
    rw [hdw]
    cases hz : (c :: rest).reverse.dropWhile isWs with
    | nil => exact absurd hz hne2
    | cons z zs => simp

/-- The sentence list produced by `splitIntoSentences` is well-shaped. -/
theorem goodSents_split (text : List Char) : GoodSents (splitIntoSentences text) := by
  by_cases hcl : cleanedText text = []
  · have hnil : splitIntoSentences text = [] := by
      unfold splitIntoSentences
      rw [hcl]
      rfl
    rw [hnil]
    exact ⟨fun s hs => absurd hs (List.not_mem_nil s), fun s hs => by simp at hs⟩
  · have hpieces : ∀ p ∈ splitAux false [] (cleanedText text), PieceOK p :=
      splitAux_pieces_ok (cleanedText text) false []
        (cleaned_spaces text) (cleaned_noWW text) (cleaned_last text)
        (fun x hx => by simp at hx) (by simp) (by simp)
        (fun x hx => by simp at hx)
        (fun x y hx _ => by simp at hx) (fun hb => by cases hb)
        (fun _ x hx => by simp at hx) (fun _ _ => ⟨hcl, cleaned_head text⟩)
    have hfil : (splitAux false [] (cleanedText text)).filter
        (fun s => !(trimChars s).isEmpty) = splitAux false [] (cleanedText text) :=
      List.filter_eq_self.mpr (fun p hp => pieceOK_filter p (hpieces p hp))
    constructor
    · intro s hs
      unfold splitIntoSentences at hs
      rw [hfil] at hs
      exact hpieces s hs
    · intro s hs
      unfold splitIntoSentences at hs
      rw [hfil] at hs
      exact splitAux_dropLast_endsTerm (cleanedText text) false [] s hs

/-- Unfolding of the space join at a cons with a non-empty tail. -/
theorem joinWithSpace_cons (c : List Char) (rest : List (List Char)) (h : rest ≠ []) :
    joinWithSpace (c :: rest) = c ++ ' ' :: joinWithSpace rest := by
  cases rest with
  | nil => exact absurd rfl h
  | cons d t => rfl

/-- The packing loop with a non-empty current chunk emits at least one
chunk. -/
theorem buildChunks_ne_nil (m : Nat) : ∀ (S : List (List Char)) (cur : List Char),
    cur ≠ [] → buildChunks m cur S ≠ [] := by
  intro S
  induction S with
  | nil => intro cur h; simp [buildChunks, h]
  | cons s rest ih =>
    intro cur h
    simp only [buildChunks]
    by_cases hfit : cur.length + s.length + 1 ≤ m
    · rw [if_pos hfit, if_neg h]
      exact ih (cur ++ ' ' :: s) (by simp)
    · rw [if_neg hfit, if_neg h]
      simp

/-- Packing then space-joining returns the space join of the current chunk
and the remaining sentences. -/
theorem join_buildChunks (m : Nat) : ∀ (S : List (List Char)) (cur : List Char),
    cur ≠ [] → (∀ s ∈ S, s ≠ []) →
    joinWithSpace (buildChunks m cur S) = joinWithSpace (cur :: S) := by
  intro S
  induction S with
  | nil =>
    intro cur h _
    simp [buildChunks, if_neg h, joinWithSpace]
  | cons s rest ih =>
    intro cur h hS
    have hsne : s ≠ [] := hS s (by simp)
    have hrest : ∀ u ∈ rest, u ≠ [] := fun u hu => hS u (by simp [hu])
    simp only [buildChunks]
    by_cases hfit : cur.length + s.length + 1 ≤ m
    · rw [if_pos hfit, if_neg h]
      rw [ih (cur ++ ' ' :: s) (by simp) hrest]
      cases rest with
      | nil => simp [joinWithSpace]
      | cons r t =>
        rw [joinWithSpace_cons _ (r :: t) (by simp),
          joinWithSpace_cons cur (s :: r :: t) (by simp),
          joinWithSpace_cons s (r :: t) (by simp)]
        simp
    · rw [if_neg hfit, if_neg h]
      rw [joinWithSpace_cons cur _ (buildChunks_ne_nil m rest s hsne)]
      rw [ih s hsne hrest]
      rw [joinWithSpace_cons cur (s :: rest) (by simp)]

/-- Space-joining the produced chunks gives back the space join of the
sentences. -/
theorem join_chunks_eq_join_sents (m : Nat) (S : List (List Char))
    (hS : ∀ s ∈ S, s ≠ []) :
    joinWithSpace (buildChunks m [] S) = joinWithSpace S := by
  cases S with
  | nil => simp [buildChunks, joinWithSpace]
  | cons s rest =>
    have hsne : s ≠ [] := hS s (by simp)
    have hrest : ∀ u ∈ rest, u ≠ [] := fun u hu => hS u (by simp [hu])
    have hstep : buildChunks m [] (s :: rest) = buildChunks m s rest := by
      simp only [buildChunks]
      by_cases hfit : ([] : List Char).length + s.length + 1 ≤ m
      · rw [if_pos hfit]
        simp
      · rw [if_neg hfit]
        simp
    rw [hstep]
    exact join_buildChunks m rest s hsne hrest

/-- The head of `s ++ l.take 1` is the head of `s ++ l`. -/
theorem head?_append_take1 (s l : List Char) :
    (s ++ l.take 1).head? = (s ++ l).head? := by
  cases s with
  | cons e t => rfl
  | nil =>
    cases l with
    | nil => rfl
    | cons d t => rfl

/-- Scanning a stretch of text that contains no split point (including at
its boundary with what follows) just accumulates it. -/
theorem splitAux_scan : ∀ (s acc l : List Char),
    (s ++ l.take 1).Chain' noTWpair →
    splitAux false acc (s ++ l) = splitAux false (s.reverse ++ acc) l := by
  intro s
  induction s with
  | nil => intro acc l _; simp
  | cons c s ih =>
    intro acc l hch
    show splitAux false acc (c :: (s ++ l)) = _
    simp only [splitAux]
    rw [if_neg (by simp)]
    have hcond : (isTerm c && headIsWs (s ++ l)) ≠ true := by
      intro hco
      obtain ⟨htc, hhw⟩ := Bool.and_eq_true_iff.mp hco
      cases hsl : s ++ l with
      | nil => rw [hsl] at hhw; simp [headIsWs] at hhw
      | cons d t =>
        rw [hsl] at hhw
        have hhw' : isWs d = true := hhw
        have hd : (s ++ l.take 1).head? = some d := by
          rw [head?_append_take1, hsl]
          rfl
        have hpair := (List.chain'_cons'.mp hch).1 d hd
        exact hpair ⟨htc, hhw'⟩
    rw [if_neg hcond]
    rw [ih (c :: acc) l (chain'_tail hch)]
    rw [show (c :: s).reverse ++ acc = s.reverse ++ c :: acc by simp]

/-- Leaving skip mode at a non-whitespace head behaves like a fresh scan. -/
theorem splitAux_true_exit (l : List Char) (h : headNotWs l) :
    splitAux true [] l = splitAux false [] l := by
  cases l with
  | nil => rfl
  | cons d t =>
    have hd : isWs d = false := h d rfl
    simp [splitAux, hd]

/-- A space join of non-empty pieces starting from a non-empty list is
non-empty. -/
theorem joinWithSpace_ne_nil : ∀ (S : List (List Char)), S ≠ [] →
    (∀ s ∈ S, s ≠ []) → joinWithSpace S ≠ [] := by
  intro S hne hS
  cases S with
  | nil => exact absurd rfl hne
  | cons s rest =>
    have hsne : s ≠ [] := hS s (by simp)
    cases rest with
    | nil => exact hsne
    | cons r t =>
      rw [joinWithSpace_cons s (r :: t) (by simp)]
      cases hs : s with
      | nil => exact absurd hs hsne
      | cons a as => simp

/-- The space join of well-shaped pieces starts with a non-whitespace
character. -/
theorem joinWithSpace_head (S : List (List Char)) (hS : ∀ s ∈ S, PieceOK s) :
    headNotWs (joinWithSpace S) := by
  cases S with
  | nil => intro c hc; simp [joinWithSpace] at hc
  | cons s rest =>
    obtain ⟨hsne, hshd, -, -, -, -⟩ := hS s (by simp)
    cases rest with
    | nil => exact hshd
    | cons r t =>
      rw [joinWithSpace_cons s (r :: t) (by simp)]
      intro c hc
      rw [head?_append_left _ hsne] at hc
      exact hshd c hc

/-- Re-scanning the space join of a well-shaped sentence list recovers
exactly the sentences. -/
theorem splitAux_join : ∀ (S : List (List Char)), (∀ s ∈ S, PieceOK s) →
    (∀ s ∈ S.dropLast, endsTerm s) → S ≠ [] →
    splitAux false [] (joinWithSpace S) = S := by
  intro S
  induction S with
  | nil => intro _ _ h; exact absurd rfl h
  | cons s rest ih =>
    intro hOK hET _
    cases rest with
    | nil =>
      have hchain : (s ++ ([] : List Char).take 1).Chain' noTWpair := by
        simpa using (hOK s (by simp)).2.2.2.2.2
      have h1 := splitAux_scan s [] [] hchain
      rw [List.append_nil] at h1
      show splitAux false [] (joinWithSpace [s]) = [s]
      rw [show joinWithSpace [s] = s from rfl, h1]
      simp [splitAux]
    | cons r t =>
      have hsOK := hOK s (by simp)
      have hsne : s ≠ [] := hsOK.1
      obtain ⟨tc, htl, htt⟩ : endsTerm s := by
        refine hET s ?_
        rw [List.dropLast_cons₂]
        simp
      have hglast : s.getLast hsne = tc := by
        have := List.getLast?_eq_getLast s hsne
        rw [htl] at this
        injection this with h
        exact h.symm
      have hsdec : s.dropLast ++ [tc] = s := by
        rw [← hglast]
        exact List.dropLast_append_getLast hsne
      have hrestOK : ∀ u ∈ r :: t, PieceOK u := fun u hu => hOK u (by simp [hu])
      have hrestET : ∀ u ∈ (r :: t).dropLast, endsTerm u := by
        intro u hu
        refine hET u ?_
        rw [List.dropLast_cons₂]
        exact List.mem_cons_of_mem s hu
      have hrestne : ∀ u ∈ r :: t, u ≠ [] := fun u hu => (hrestOK u hu).1
      have hJ : joinWithSpace (s :: r :: t) =
          s.dropLast ++ (tc :: ' ' :: joinWithSpace (r :: t)) := by
        rw [joinWithSpace_cons s (r :: t) (by simp), ← hsdec]
        simp
      rw [hJ]
      have hchain : (s.dropLast ++ (tc :: ' ' :: joinWithSpace (r :: t)).take 1).Chain'
          noTWpair := by
        rw [show (tc :: ' ' :: joinWithSpace (r :: t)).take 1 = [tc] from rfl, hsdec]
        exact hsOK.2.2.2.2.2
      rw [splitAux_scan _ _ _ hchain]
      simp only [splitAux]
      rw [if_neg (by simp)]
      rw [if_pos (by simp [htt, headIsWs]; decide)]
      rw [if_pos (show (true && isWs ' ') = true from by decide)]
      rw [splitAux_true_exit _ (joinWithSpace_head (r :: t) hrestOK),
        ih hrestOK hrestET (by simp)]
      rw [show (s.dropLast.reverse ++ ([] : List Char)).reverse ++ [tc] = s from by
        simp [hsdec]]

/-- The space join of well-shaped sentences is already normalised text. -/
theorem join_clean (S : List (List Char)) (hS : ∀ s ∈ S, PieceOK s) :
    (joinWithSpace S).Chain' noWWpair ∧ spacesOnly (joinWithSpace S) ∧
    headNotWs (joinWithSpace S) ∧ lastNotWs (joinWithSpace S) := by
  induction S with
  | nil =>
    refine ⟨by simp [joinWithSpace], ?_, ?_, ?_⟩
    · intro c hc; simp [joinWithSpace] at hc
    · intro c hc; simp [joinWithSpace] at hc
    · intro c hc; simp [joinWithSpace] at hc
  | cons s rest ih =>
    obtain ⟨hsne, hshd, hsla, hssp, hsWW, -⟩ := hS s (by simp)
    cases rest with
    | nil => exact ⟨hsWW, hssp, hshd, hsla⟩
    | cons r t =>
      obtain ⟨ihWW, ihSp, ihHd, ihLa⟩ := ih (fun u hu => hS u (by simp [hu]))
      have hrne : ∀ u ∈ r :: t, u ≠ [] := fun u hu => (hS u (by simp [hu])).1
      have hJne : joinWithSpace (r :: t) ≠ [] :=
        joinWithSpace_ne_nil (r :: t) (by simp) hrne
      rw [joinWithSpace_cons s (r :: t) (by simp)]
      refine ⟨?_, ?_, ?_, ?_⟩
      · rw [List.chain'_append]
        refine ⟨hsWW, ?_, ?_⟩
        · rw [List.chain'_cons']
          refine ⟨?_, ihWW⟩
          intro y hy hcon
          rw [ihHd y hy] at hcon
          exact absurd hcon.2 (by simp)
        · intro x hx y hy hcon
          rw [hsla x hx] at hcon
          exact absurd hcon.1 (by simp)
      · intro x hx hws
        rcases List.mem_append.mp hx with hx | hx
        · exact hssp x hx hws
        · rcases List.mem_cons.mp hx with hx | hx
          · exact hx
          · exact ihSp x hx hws
      · intro c hc
        rw [head?_append_left _ hsne] at hc
        exact hshd c hc
      · intro c hc
        rw [List.getLast?_append_of_ne_nil s (by simp)] at hc
        cases hJ : joinWithSpace (r :: t) with
        | nil => exact absurd hJ hJne
        | cons j js =>
          rw [hJ, List.getLast?_cons_cons] at hc
          refine ihLa c ?_
          rw [hJ]
          exact hc

/-- Whitespace normalisation is the identity on already-normalised text. -/
theorem collapse_id : ∀ l : List Char, l.Chain' noWWpair → spacesOnly l →
    collapseAux false l = l := by
  intro l
  induction l with
  | nil => intro _ _; rfl
  | cons c rest ih =>
    intro hWW hSp
    by_cases hc : isWs c = true
    · have hc' : c = ' ' := hSp c (by simp) hc
      have hstep : collapseAux false (c :: rest) = ' ' :: collapseAux true rest := by
        simp [collapseAux, hc]
      have hhd : headNotWs rest := by
        intro y hy
        have := (List.chain'_cons'.mp hWW).1 y hy
        cases hws : isWs y
        · rfl
        · exact absurd ⟨hc, hws⟩ this
      have hexit : collapseAux true rest = collapseAux false rest := by
        cases rest with
        | nil => rfl
        | cons d t => simp [collapseAux, hhd d rfl]
      rw [hstep, hexit, ih (chain'_tail hWW) (spacesOnly_tail hSp), hc']
    · have hstep : collapseAux false (c :: rest) = c :: collapseAux false rest := by
        simp [collapseAux, hc]
      rw [hstep, ih (chain'_tail hWW) (spacesOnly_tail hSp)]

/-- Trimming is the identity on text with non-whitespace ends. -/
theorem trim_id (l : List Char) (hh : headNotWs l) (hl : lastNotWs l) :
    trimChars l = l := by
  have h1 : l.dropWhile isWs = l := by
    cases l with
    | nil => rfl
    | cons c rest => rw [List.dropWhile_cons, if_neg (by simp [hh c rfl])]
  unfold trimChars
  rw [h1]
  have h2 : l.reverse.dropWhile isWs = l.reverse := by
    cases hr : l.reverse with
    | nil => rfl
    | cons c rest =>
      have hlast : l.getLast? = some c := by
        rw [← List.head?_reverse, hr]
        rfl
      rw [List.dropWhile_cons, if_neg (by simp [hl c hlast])]
  rw [h2, List.reverse_reverse]

/-- Normalisation is the identity on the space join of well-shaped
sentences. -/
theorem cleaned_join (S : List (List Char)) (hS : ∀ s ∈ S, PieceOK s) :
    cleanedText (joinWithSpace S) = joinWithSpace S := by
  obtain ⟨hWW, hSp, hHd, hLa⟩ := join_clean S hS
  unfold cleanedText
  rw [collapse_id _ hWW hSp, trim_id _ hHd hLa]

/-- Re-splitting the space join of a well-shaped, terminator-separated
sentence list recovers exactly that list. -/
theorem split_join_id (S : List (List Char)) (hOK : ∀ s ∈ S, PieceOK s)
    (hET : ∀ s ∈ S.dropLast, endsTerm s) (hne0 : S ≠ []) :
    splitIntoSentences (joinWithSpace S) = S := by
  unfold splitIntoSentences
  rw [cleaned_join S hOK, splitAux_join S hOK hET hne0]
  exact List.filter_eq_self.mpr (fun p hp => pieceOK_filter p (hOK p hp))

/-- C7. Segmentation idempotence: for every input text and every positive
character budget, joining the chunks produced by `createSmartChunks` with
single spaces and segmenting that string again with the same budget yields
exactly the same sequence of chunks. -/
theorem segmentationIdempotent (text : List Char) (maxChars : Nat)
    (_h : 0 < maxChars) :
    createSmartChunks (joinWithSpace (createSmartChunks text maxChars)) maxChars =
      createSmartChunks text maxChars := by
  by_cases hS : splitIntoSentences text = []
  · have hC : createSmartChunks text maxChars = [] := by
      unfold createSmartChunks
      rw [hS]
      rfl
    rw [hC]
    rfl
  · obtain ⟨hOK, hET⟩ := goodSents_split text
    have hne : ∀ s ∈ splitIntoSentences text, s ≠ [] := fun s hs => (hOK s hs).1
    unfold createSmartChunks
    rw [join_chunks_eq_join_sents maxChars (splitIntoSentences text) hne,
      split_join_id (splitIntoSentences text) hOK hET hS]

/-- Concrete instance of segmentation idempotence on a sample text with
budget 20. -/
theorem segmentationIdempotent_witness :
    0 < 20 ∧
    createSmartChunks (joinWithSpace (createSmartChunks helloText 20)) 20 =
      createSmartChunks helloText 20 :=
  ⟨by decide, segmentationIdempotent helloText 20 (by decide)⟩
